import Mathlib

/-!
Verification of the conversation parsing and analysis engine of the
claude-code-data library (src/parser/conversation-parser.ts and the
conversation analyzer concatenated to it, with the type guards of
src/utils/type-guards.ts and the types of src/types/messages.ts).

The development is split in two layers, mirroring the code:

* a raw JSON layer for `readConversationLines` / `parseConversation`,
  where entries are untyped JSON values exactly as `JSON.parse` returns
  them and the runtime behaviour of the JavaScript type guards
  (including the `in` operator throwing a TypeError on primitives) is
  modelled explicitly;
* a typed layer for the validator, the tree builder, the active-branch
  resolver and the statistics aggregator, whose inputs are the typed
  collections (`ConversationMessage`, `ParsedConversation`) that the
  TypeScript declarations promise.

Partial (possibly non-terminating) loops of the source — the recursive
`buildNode` of `buildConversationTree` and the parent walk of
`getActiveBranch` — are embedded with an explicit fuel argument large
enough to agree with the source on every input on which the source
terminates.
-/

/-- A JSON value as produced by `JSON.parse`.  Numbers are modelled as
integers (no claim depends on fractional values), and the fields of an
object are listed in insertion order; `JSON.parse` keeps the last
occurrence of a duplicated key, so parsed objects have unique keys. -/
inductive Json where
  | null
  | bool (b : Bool)
  | num (n : Int)
  | str (s : String)
  | arr (elems : List Json)
  | obj (fields : List (String × Json))
deriving Repr

mutual

def Json.beq : Json → Json → Bool
  | .null, .null => true
  | .bool a, .bool b => a == b
  | .num a, .num b => a == b
  | .str a, .str b => a == b
  | .arr a, .arr b => Json.beqList a b
  | .obj a, .obj b => Json.beqFields a b
  | _, _ => false

def Json.beqList : List Json → List Json → Bool
  | [], [] => true
  | a :: as, b :: bs => Json.beq a b && Json.beqList as bs
  | _, _ => false

def Json.beqFields : List (String × Json) → List (String × Json) → Bool
  | [], [] => true
  | (ka, va) :: as, (kb, vb) :: bs => ka == kb && Json.beq va vb && Json.beqFields as bs
  | _, _ => false

end

instance : BEq Json := ⟨Json.beq⟩

mutual

/-- The structural equality test `Json.beq` is sound and complete, which
yields decidable equality for the nested inductive (the derive handler
does not support it). -/
def Json.beq_eq : ∀ a b : Json, Json.beq a b = true ↔ a = b
  | .null, b => by cases b <;> simp [Json.beq]
  | .bool x, b => by cases b <;> simp [Json.beq]
  | .num x, b => by cases b <;> simp [Json.beq]
  | .str x, b => by cases b <;> simp [Json.beq]
  | .arr xs, b => by
      cases b <;> simp [Json.beq]
      exact Json.beqList_eq xs _
  | .obj xs, b => by
      cases b <;> simp [Json.beq]
      exact Json.beqFields_eq xs _

def Json.beqList_eq : ∀ as bs : List Json, Json.beqList as bs = true ↔ as = bs
  | [], bs => by cases bs <;> simp [Json.beqList]
  | a :: as, [] => by simp [Json.beqList]
  | a :: as, b :: bs => by
      simp [Json.beqList, Json.beq_eq a b, Json.beqList_eq as bs]

def Json.beqFields_eq : ∀ as bs : List (String × Json), Json.beqFields as bs = true ↔ as = bs
  | [], bs => by cases bs <;> simp [Json.beqFields]
  | a :: as, [] => by simp [Json.beqFields]
  | (ka, va) :: as, (kb, vb) :: bs => by
      simp [Json.beqFields, Json.beq_eq va vb, Json.beqFields_eq as bs]

end

instance : DecidableEq Json := fun a b => decidable_of_iff _ (Json.beq_eq a b)

/-- One physical line of the input file, abstracting the transport and
`JSON.parse`: a line is blank (whitespace only), parses to a JSON value,
or fails to parse with some underlying error message. -/
inductive LineContent where
  | blank
  | json (j : Json)
  | malformed (msg : String)
deriving Repr

def isBlankLine : LineContent → Bool
  | .blank => true
  | _ => false

def isMalformedLine : LineContent → Bool
  | .malformed _ => true
  | _ => false

/-- Loop body of `readConversationLines` (conversation-parser.ts lines
42-57): 1-based line numbering over all lines, blank lines skipped, each
JSON line yielded, and the first malformed line aborting the sequence
with the failing line number and the underlying message. -/
def readLinesAux : List LineContent → Nat → List Json × Option (Nat × String)
  | [], _ => ([], none)
  | .blank :: rest, n => readLinesAux rest (n + 1)
  | .json j :: rest, n =>
      let r := readLinesAux rest (n + 1)
      (j :: r.1, r.2)
  | .malformed msg :: _, n => ([], some (n, msg))

/-- The async generator `readConversationLines`: the entries it yields,
and, when some line fails to decode, the line number and message of the
error it throws after those entries. -/
def readConversationLines (lines : List LineContent) : List Json × Option (Nat × String) :=
  readLinesAux lines 1

/-- The JavaScript `typeof v === "object"` test: true for objects,
arrays and `null`. -/
def jsTypeofObject : Json → Bool
  | .obj _ => true
  | .arr _ => true
  | .null => true
  | _ => false

/-- The JavaScript `"k" in v` test on an object or array (the only
values for which it does not throw).  Array keys are the canonical
index strings and `"length"`. -/
def jsHasProp (k : String) : Json → Bool
  | .obj fields => fields.any (fun f => f.1 == k)
  | .arr elems =>
      k == "length" ||
        (match k.toNat? with
         | some i => toString i == k && decide (i < elems.length)
         | none => false)
  | _ => false

/-- JavaScript property access `v.k` (for the values it is used on in
the type guards); `none` is `undefined`.  Parsed objects have unique
keys, so a first-match lookup is exact. -/
def getField (j : Json) (k : String) : Option Json :=
  match j with
  | .obj fields => (fields.find? (fun f => f.1 == k)).map (fun f => f.2)
  | _ => none

/-- `isSummaryMessage` of type-guards.ts: `typeof entry === "object" &&
entry !== null && "type" in entry && entry.type === "summary"`.  Every
conjunct is guarded, so this guard never throws. -/
def isSummaryMessage (entry : Json) : Bool :=
  jsTypeofObject entry && !(entry == Json.null) &&
    jsHasProp "type" entry && (getField entry "type" == some (Json.str "summary"))

/-- `isConversationMessage` of type-guards.ts: `"uuid" in entry &&
(entry.type === "user" || entry.type === "assistant")`.  The `in`
operator throws a TypeError when `entry` is not an object (a number,
string, boolean, or null), which this embedding surfaces as `.error`. -/
def isConversationMessage (entry : Json) : Except String Bool :=
  match entry with
  | .obj _ =>
      .ok (jsHasProp "uuid" entry &&
        (getField entry "type" == some (Json.str "user") ||
         getField entry "type" == some (Json.str "assistant")))
  | .arr _ =>
      .ok (jsHasProp "uuid" entry &&
        (getField entry "type" == some (Json.str "user") ||
         getField entry "type" == some (Json.str "assistant")))
  | _ => .error "TypeError: Cannot use 'in' operator to search for 'uuid' in entry"

def escapeChar (c : Char) : String :=
  if c == '\"' then "\\\""
  else if c == '\\' then "\\\\"
  else if c == '\n' then "\\n"
  else if c == '\t' then "\\t"
  else if c == '\r' then "\\r"
  else String.singleton c

def escapeString (s : String) : String :=
  String.join (s.data.map escapeChar)

mutual

/-- `JSON.stringify` on a parsed value: object fields in insertion
order, standard escaping of the common control characters. -/
def serializeJson : Json → String
  | .null => "null"
  | .bool true => "true"
  | .bool false => "false"
  | .num n => toString n
  | .str s => "\"" ++ escapeString s ++ "\""
  | .arr elems => "[" ++ String.intercalate "," (serializeList elems) ++ "]"
  | .obj fields => "\x7b" ++ String.intercalate "," (serializeFields fields) ++ "\x7d"

def serializeList : List Json → List String
  | [] => []
  | j :: rest => serializeJson j :: serializeList rest

def serializeFields : List (String × Json) → List String
  | [] => []
  | f :: rest => ("\"" ++ escapeString f.1 ++ "\":" ++ serializeJson f.2) :: serializeFields rest

end

/-- A recorded parse error: `{ line, error, content }` of
conversation-parser.ts lines 22-26. -/
structure ParseError where
  line : Nat
  error : String
  content : String
deriving Repr, DecidableEq

/-- The `ParsedConversation` produced by `parseConversation`, whose
`summaries` and `messages` are raw parsed JSON values (the source casts
them; it does not reshape them). -/
structure ParsedConversationRaw where
  summaries : List Json
  messages : List Json
  filePath : String
  lineCount : Nat
  parseErrors : List ParseError
deriving Repr, DecidableEq

/-- Classification loop of `parseConversation` (lines 72-86):
`lineCount` is incremented for every yielded entry, each entry goes to
exactly one bucket, and an unrecognized entry records one ParseError
whose content is the serialized entry.  A TypeError raised by
`isConversationMessage` escapes the surrounding catch (its message does
not contain "Failed to parse line") and is rethrown to the caller,
modelled as `.error`. -/
def classifyLoop : List Json → Nat → Except String (List Json × List Json × List ParseError × Nat)
  | [], lineCount => .ok ([], [], [], lineCount)
  | entry :: rest, lineCount =>
      let lc := lineCount + 1
      if isSummaryMessage entry then
        (classifyLoop rest lc).map (fun r => (entry :: r.1, r.2.1, r.2.2.1, r.2.2.2))
      else
        match isConversationMessage entry with
        | .error msg => .error msg
        | .ok true =>
            (classifyLoop rest lc).map (fun r => (r.1, entry :: r.2.1, r.2.2.1, r.2.2.2))
        | .ok false =>
            (classifyLoop rest lc).map (fun r =>
              (r.1, r.2.1, ⟨lc, "Unknown entry type", serializeJson entry⟩ :: r.2.2.1, r.2.2.2))

/-- `parseConversation` (lines 63-112): drains the line decoder,
classifies every yielded entry, converts a decode failure into a
recorded ParseError carrying the failing line number, and returns the
assembled `ParsedConversation`.  The only failure that reaches the
caller is the rethrown TypeError of `isConversationMessage`. -/
def parseConversation (filePath : String) (lines : List LineContent) :
    Except String ParsedConversationRaw :=
  match classifyLoop (readConversationLines lines).1 0 with
  | .error msg => .error msg
  | .ok r =>
      .ok ⟨r.1, r.2.1, filePath, r.2.2.2,
        r.2.2.1 ++
          (match (readConversationLines lines).2 with
           | some e => [⟨e.1, "Failed to parse line " ++ toString e.1 ++ ": " ++ e.2, ""⟩]
           | none => [])⟩

/-- Whether a JSON value is an object or an array — exactly the values
on which `isConversationMessage` does not throw. -/
def jsObjectLike : Json → Bool
  | .obj _ => true
  | .arr _ => true
  | _ => false

/-- A structurally valid entry that fits none of the three recognized
buckets (the Unrecognized case of the assembler). -/
def unrecognizedEntry (j : Json) : Bool :=
  !isSummaryMessage j &&
    (match isConversationMessage j with
     | .ok b => !b
     | .error _ => false)

def parseErrorsOf : Except String ParsedConversationRaw → List ParseError
  | .ok r => r.parseErrors
  | .error _ => []

def lineCountOf : Except String ParsedConversationRaw → Nat
  | .ok r => r.lineCount
  | .error _ => 0

/-! ## Typed data model (src/types/messages.ts) -/

/-- `SummaryMessage`: `{ type: "summary", summary, leafUuid }`; the tag
is the constructor identity. -/
structure SummaryMessage where
  summary : String
  leafUuid : String
deriving Repr, DecidableEq

/-- `TokenUsage`: every sub-field optional, defaulted to 0 where read. -/
structure TokenUsage where
  input_tokens : Option Nat
  output_tokens : Option Nat
  cache_creation_input_tokens : Option Nat
  cache_read_input_tokens : Option Nat
deriving Repr, DecidableEq

/-- `ToolResultContent`: `{ type: "text", text }`. -/
structure ToolResultContent where
  text : String
deriving Repr, DecidableEq

/-- The content of a `ToolResultBlock`: a string or a list of text
items. -/
inductive ToolResultBlockContent where
  | str (s : String)
  | items (l : List ToolResultContent)
deriving Repr, DecidableEq

/-- `ToolResultBlock`: the only `UserContentBlock` shape; its `type`
field is the literal `"tool_result"`. -/
structure ToolResultBlock where
  tool_use_id : String
  content : ToolResultBlockContent
  is_error : Option Bool
deriving Repr, DecidableEq

/-- A user message's `content`: a string or a list of content blocks. -/
inductive UserContent where
  | str (s : String)
  | blocks (bs : List ToolResultBlock)
deriving Repr, DecidableEq

/-- `AssistantContentBlock`: `TextContentBlock | ToolUseContentBlock`,
discriminated by `type`. -/
inductive AssistantContentBlock where
  | text (text : String)
  | tool_use (id : String) (name : String) (input : List (String × Json))
deriving Repr, DecidableEq

/-- `ClaudeAPIResponse`: the `message` field of an assistant entry. -/
structure ClaudeAPIResponse where
  id : String
  model : String
  content : List AssistantContentBlock
  stop_reason : Option String
  stop_sequence : Option String
  usage : Option TokenUsage
deriving Repr, DecidableEq

/-- The variant part of a `ConversationMessage`: the user shape carries
`message.content` and `isMeta`, the assistant shape carries its API
response together with the optional `costUSD` and `durationMs`. -/
inductive MessagePayload where
  | user (content : UserContent) (isMeta : Option Bool)
  | assistant (message : ClaudeAPIResponse) (costUSD : Option ℚ) (durationMs : Option ℚ)
deriving Repr, DecidableEq

/-- `ConversationMessage = UserMessage | AssistantMessage`: the common
`BaseMessage` fields used by the engine plus the variant payload. -/
structure ConversationMessage where
  uuid : String
  parentUuid : Option String
  timestamp : String
  payload : MessagePayload
deriving Repr, DecidableEq

/-- Typed `ParsedConversation`, the input of the validator, resolver
and aggregator. -/
structure ParsedConversation where
  summaries : List SummaryMessage
  messages : List ConversationMessage
  filePath : String
  lineCount : Nat
  parseErrors : List ParseError
deriving Repr, DecidableEq

/-! ## Type guards on the typed model (src/utils/type-guards.ts) -/

def isUserMessage (m : ConversationMessage) : Bool :=
  match m.payload with
  | .user _ _ => true
  | _ => false

def isAssistantMessage (m : ConversationMessage) : Bool :=
  match m.payload with
  | .assistant _ _ _ => true
  | _ => false

def isToolUseContent : AssistantContentBlock → Bool
  | .tool_use _ _ _ => true
  | _ => false

/-- `hasToolResult`: user content is an array some block of which is a
tool result; in the typed model every `UserContentBlock` is a
`ToolResultBlock`, so the inner test reduces to nonemptiness. -/
def hasToolResult (m : ConversationMessage) : Bool :=
  match m.payload with
  | .user (.blocks bs) _ => !bs.isEmpty
  | _ => false

/-! ## Structural validator
(validation phase of `parseAndValidateConversation`, lines 117-161) -/

/-- First validation pass (lines 126-141): walking `messages` with a
set of already-seen uuids, the second and later occurrences of a uuid
each push a duplicate error at the approximate line
`index + summaries.length + 1`; the uuid is added to the set after the
check.  The set is modelled as the list of seen uuids (only membership
is observed). -/
def dupPass (seen : List String) (idx sumLen : Nat) : List ConversationMessage → List ParseError
  | [] => []
  | m :: rest =>
      if seen.contains m.uuid then
        ⟨idx + sumLen + 1, "Duplicate UUID: " ++ m.uuid, ""⟩ ::
          dupPass (m.uuid :: seen) (idx + 1) sumLen rest
      else
        dupPass (m.uuid :: seen) (idx + 1) sumLen rest

/-- Second validation pass (lines 144-156): with the complete set of
uuids in hand, a message whose `parentUuid` is truthy (non-null and
non-empty — the source tests `message.parentUuid &&`) and not among the
known uuids pushes one orphan error. -/
def orphanPass (ids : List String) (idx sumLen : Nat) : List ConversationMessage → List ParseError
  | [] => []
  | m :: rest =>
      match m.parentUuid with
      | some p =>
          if !(p == "") && !(ids.contains p) then
            ⟨idx + sumLen + 1, "Orphaned message: parent UUID " ++ p ++ " not found", ""⟩ ::
              orphanPass ids (idx + 1) sumLen rest
          else
            orphanPass ids (idx + 1) sumLen rest
      | none => orphanPass ids (idx + 1) sumLen rest

def allUuids (messages : List ConversationMessage) : List String :=
  messages.map (fun m => m.uuid)

/-- The validation errors appended by `parseAndValidateConversation`:
all duplicate errors of the first pass followed by all orphan errors of
the second pass. -/
def validationErrors (sumLen : Nat) (messages : List ConversationMessage) : List ParseError :=
  dupPass [] 0 sumLen messages ++ orphanPass (allUuids messages) 0 sumLen messages

/-- Validation phase of `parseAndValidateConversation` applied to an
already-parsed conversation: the validation errors are appended to the
existing `parseErrors`; nothing else changes. -/
def validateConversation (conv : ParsedConversation) : ParsedConversation :=
  { conv with parseErrors := conv.parseErrors ++ validationErrors conv.summaries.length conv.messages }

/-- Declarative form of the first pass: a message produces a duplicate
error exactly when some earlier message carries the same uuid (`pre` is
the list of messages before the current one). -/
def dupSpecAux (pre : List ConversationMessage) (sumLen : Nat) :
    List ConversationMessage → List ParseError
  | [] => []
  | m :: rest =>
      (if pre.any (fun x => x.uuid == m.uuid) then
        [⟨pre.length + sumLen + 1, "Duplicate UUID: " ++ m.uuid, ""⟩]
      else []) ++ dupSpecAux (pre ++ [m]) sumLen rest

/-- Declarative form of the second pass: one orphan error per message
whose (truthy) parent uuid matches no message uuid in `all`. -/
def orphanSpecAux (idx sumLen : Nat) (all : List ConversationMessage) :
    List ConversationMessage → List ParseError
  | [] => []
  | m :: rest =>
      (match m.parentUuid with
       | some p =>
           if !(p == "") && !(all.any (fun x => x.uuid == p)) then
             [⟨idx + sumLen + 1, "Orphaned message: parent UUID " ++ p ++ " not found", ""⟩]
           else []
       | none => []) ++ orphanSpecAux (idx + 1) sumLen all rest

/-- A message is orphaned in the sense actually tested by the second
pass: a truthy `parentUuid` that matches no uuid in the list. -/
def truthyOrphan (all : List ConversationMessage) (m : ConversationMessage) : Bool :=
  match m.parentUuid with
  | some p => !(p == "") && !(all.any (fun x => x.uuid == p))
  | none => false

/-! ## Tree builder (`buildConversationTree`, lines 298-325) -/

/-- A node of the forest: `{ message, children }`. -/
inductive ConversationNode where
  | mk (message : ConversationMessage) (children : List ConversationNode)

/-- One `childrenMap.set` step: `siblings = get(parentUuid) || [];
siblings.push(msg); set(parentUuid, siblings)` — the message is
appended to its parent's bucket, new keys are appended to the map. -/
def insertChild (acc : List (Option String × List ConversationMessage))
    (k : Option String) (m : ConversationMessage) :
    List (Option String × List ConversationMessage) :=
  match acc with
  | [] => [(k, [m])]
  | e :: rest => if e.1 == k then (e.1, e.2 ++ [m]) :: rest else e :: insertChild rest k m

/-- The `childrenMap` built by the single pass over `messages` (the
`messageMap` built alongside it is never read by the tree builder). -/
def childrenMapOf (messages : List ConversationMessage) :
    List (Option String × List ConversationMessage) :=
  messages.foldl (fun acc m => insertChild acc m.parentUuid m) []

/-- `childrenMap.get(k) || []`. -/
def childrenGet (cm : List (Option String × List ConversationMessage))
    (k : Option String) : List ConversationMessage :=
  ((cm.find? (fun e => e.1 == k)).map (fun e => e.2)).getD []

/-- The recursive `buildNode`, with fuel: the source recursion is
unbounded (it diverges on a `parentUuid` cycle reachable from a root);
with fuel `messages.length` the embedding agrees with the source on
every input on which the source terminates. -/
def buildNode (cm : List (Option String × List ConversationMessage)) :
    Nat → ConversationMessage → ConversationNode
  | 0, m => .mk m []
  | fuel + 1, m =>
      .mk m ((childrenGet cm (some m.uuid)).map (fun c => buildNode cm fuel c))

/-- `buildConversationTree`: build the lookup maps, then materialize
one tree per message in the null-parent bucket. -/
def buildConversationTree (messages : List ConversationMessage) : List ConversationNode :=
  let childrenMap := childrenMapOf messages
  (childrenGet childrenMap none).map (fun root => buildNode childrenMap messages.length root)

mutual

/-- Number of nodes of a tree, at all depths. -/
def countNodes : ConversationNode → Nat
  | .mk _ children => 1 + countNodesList children

/-- Number of nodes of a forest, at all depths. -/
def countNodesList : List ConversationNode → Nat
  | [] => 0
  | n :: rest => countNodes n + countNodesList rest

end

/-- A message is orphaned in the sense of the tree-completeness claim:
its `parentUuid` is non-null and matches no message's uuid. -/
def orphanedMessage (messages : List ConversationMessage) (m : ConversationMessage) : Bool :=
  match m.parentUuid with
  | some p => !(messages.any (fun x => x.uuid == p))
  | none => false

/-- Ancestor chain of a message: the list `[m, parent of m, …, root]`,
following `parentUuid` through a first-match uuid lookup, `none` when
the walk hits a missing parent or does not terminate within `fuel`
lookups.  This is the specification-side notion used to count the
messages the tree builder actually materializes. -/
def chainToRoot (messages : List ConversationMessage) :
    Nat → ConversationMessage → Option (List ConversationMessage)
  | fuel, m =>
      match m.parentUuid with
      | none => some [m]
      | some p =>
          match fuel with
          | 0 => none
          | fuel + 1 =>
              match messages.find? (fun x => x.uuid == p) with
              | none => none
              | some par => (chainToRoot messages fuel par).map (fun l => m :: l)

/-- A message is attached to the forest exactly when its whole ancestor
chain resolves to a null-parent root. -/
def rootedMessage (messages : List ConversationMessage) (m : ConversationMessage) : Bool :=
  (chainToRoot messages messages.length m).isSome

/-! ## Active-branch resolver (`getActiveBranch`, lines 330-363) -/

/-- `new Map(messages.map(m => [m.uuid, m])).get(u)`: `Map.set`
overwrites, so the last message with a given uuid wins. -/
def mapGet (messages : List ConversationMessage) (u : String) : Option ConversationMessage :=
  messages.reverse.find? (fun m => m.uuid == u)

/-- The leaf-to-root walk of `getActiveBranch` (lines 351-360), with
fuel: each iteration looks the current uuid up, breaks on a miss,
prepends the found message and moves to its parent; a null parent ends
the loop.  The source loop is unbounded (it diverges on a `parentUuid`
cycle); any terminating walk visits pairwise-distinct messages, so fuel
`messages.length + 1` makes the embedding agree with the source
whenever the source terminates. -/
def walkBranch (messages : List ConversationMessage) :
    Nat → Option String → List ConversationMessage → List ConversationMessage
  | 0, _, branch => branch
  | _ + 1, none, branch => branch
  | fuel + 1, some u, branch =>
      match mapGet messages u with
      | none => branch
      | some m => walkBranch messages fuel m.parentUuid (m :: branch)

/-- `getActiveBranch`: empty when there is no summary or no message;
otherwise resolve the first summary's `leafUuid`, fall back to the full
message list when it matches nothing, and otherwise walk parent
pointers from the leaf back to a root. -/
def getActiveBranch (conv : ParsedConversation) : List ConversationMessage :=
  match conv.summaries, conv.messages with
  | [], _ => []
  | _, [] => []
  | s :: _, _ :: _ =>
      if (mapGet conv.messages s.leafUuid).isNone then
        conv.messages
      else
        walkBranch conv.messages (conv.messages.length + 1) (some s.leafUuid) []

/-- Termination of the parent walk from one starting uuid within the
given number of lookups. -/
def walkTerminatesFrom (messages : List ConversationMessage) :
    Nat → Option String → Bool
  | 0, _ => false
  | _ + 1, none => true
  | fuel + 1, some u =>
      match mapGet messages u with
      | none => true
      | some m => walkTerminatesFrom messages fuel m.parentUuid

/-- The conversation's parent links contain no cycle: the walk from
every message terminates (a terminating walk visits pairwise-distinct
messages, so `messages.length + 1` lookups always suffice). -/
def parentLinksTerminate (conv : ParsedConversation) : Bool :=
  conv.messages.all (fun m =>
    walkTerminatesFrom conv.messages (conv.messages.length + 1) (some m.uuid))

/-! ## Statistics aggregator (`calculateConversationStats`, lines 201-293) -/

structure TokenTotals where
  input : Nat
  output : Nat
  cacheCreation : Nat
  cacheRead : Nat
deriving Repr, DecidableEq

/-- `ConversationStats`; `models` is the `Map` in key-insertion order.
`averageResponseTimeMs` and `totalCostUSD` are exact rationals where
the source uses floating point. -/
structure ConversationStats where
  messageCount : Nat
  userMessageCount : Nat
  assistantMessageCount : Nat
  totalCostUSD : ℚ
  totalTokens : TokenTotals
  averageResponseTimeMs : ℚ
  conversationDurationMs : Int
  toolUsageCount : Nat
  models : List (String × Nat)
  branches : Nat
deriving Repr, DecidableEq

/-- One `counts.set(k, (counts.get(k) || 0) + 1)` step of the model /
children tallies: an existing key is bumped in place, a new key is
appended. -/
def bumpCount {α : Type} [BEq α] (acc : List (α × Nat)) (k : α) : List (α × Nat) :=
  match acc with
  | [] => [(k, 1)]
  | e :: rest => if e.1 == k then (e.1, e.2 + 1) :: rest else e :: bumpCount rest k

def lookupCount {α : Type} [BEq α] (acc : List (α × Nat)) (k : α) : Nat :=
  ((acc.find? (fun e => e.1 == k)).map (fun e => e.2)).getD 0

/-- `Math.max(...l)` on a nonempty list (the aggregator only spreads a
nonempty timestamp list). -/
def maxList : List Int → Int
  | [] => 0
  | t :: rest => rest.foldl max t

def minList : List Int → Int
  | [] => 0
  | t :: rest => rest.foldl min t

/-- `calculateConversationStats`, parameterized by `getTime`, the
embedding of `new Date(s).getTime()` (an external API the aggregator
only composes with max/min).  The `| _ => acc` arms of the folds over
`assistantMessages` are unreachable: every element passed them
satisfies `isAssistantMessage`. -/
def calculateConversationStats (getTime : String → Int)
    (conversation : ParsedConversation) : ConversationStats :=
  let messages := conversation.messages
  if messages.length = 0 then
    ⟨0, 0, 0, 0, ⟨0, 0, 0, 0⟩, 0, 0, 0, [], 0⟩
  else
    let assistantMessages := messages.filter isAssistantMessage
    let userMessages := messages.filter isUserMessage
    let totalTokens : TokenTotals :=
      assistantMessages.foldl (fun acc msg =>
        match msg.payload with
        | .assistant resp _ _ =>
            ⟨acc.input + ((resp.usage.bind (fun u => u.input_tokens)).getD 0),
             acc.output + ((resp.usage.bind (fun u => u.output_tokens)).getD 0),
             acc.cacheCreation + ((resp.usage.bind (fun u => u.cache_creation_input_tokens)).getD 0),
             acc.cacheRead + ((resp.usage.bind (fun u => u.cache_read_input_tokens)).getD 0)⟩
        | _ => acc) ⟨0, 0, 0, 0⟩
    let models : List (String × Nat) :=
      assistantMessages.foldl (fun acc msg =>
        match msg.payload with
        | .assistant resp _ _ => bumpCount acc resp.model
        | _ => acc) []
    let toolUsageCount : Nat :=
      (assistantMessages.foldl (fun count msg =>
        match msg.payload with
        | .assistant resp _ _ => count + (resp.content.filter isToolUseContent).length
        | _ => count) 0) + (userMessages.filter hasToolResult).length
    let timestamps := messages.map (fun m => getTime m.timestamp)
    let conversationDurationMs := maxList timestamps - minList timestamps
    let childrenCount : List (Option String × Nat) :=
      messages.foldl (fun acc msg => bumpCount acc msg.parentUuid) []
    let branches := (childrenCount.filter (fun e => decide (1 < e.2))).length
    { messageCount := messages.length
      userMessageCount := userMessages.length
      assistantMessageCount := assistantMessages.length
      totalCostUSD :=
        assistantMessages.foldl (fun sum msg =>
          match msg.payload with
          | .assistant _ cost _ => sum + cost.getD 0
          | _ => sum) 0
      totalTokens := totalTokens
      averageResponseTimeMs :=
        if 0 < assistantMessages.length then
          (assistantMessages.foldl (fun sum msg =>
            match msg.payload with
            | .assistant _ _ dur => sum + dur.getD 0
            | _ => sum) 0) / (assistantMessages.length : ℚ)
        else 0
      conversationDurationMs := conversationDurationMs
      toolUsageCount := toolUsageCount
      models := models
      branches := branches }

/-! ## Concrete conversations used as witnesses and counterexamples -/

/-- A minimal user message for concrete test conversations. -/
def mkUserMsg (u : String) (p : Option String) : ConversationMessage :=
  ⟨u, p, "2025-01-01T00:00:00.000Z", .user (.str "hi") none⟩

/-- A child of a missing parent followed by a child of that child: the
second message is dropped from the forest without being orphaned. -/
def msgsC2 : List ConversationMessage :=
  [mkUserMsg "a" (some "zz"), mkUserMsg "b" (some "a")]

/-- A root with one child plus one directly-orphaned message. -/
def msgsC2w : List ConversationMessage :=
  [mkUserMsg "r" none, mkUserMsg "a" (some "r"), mkUserMsg "o" (some "zz")]

/-- Two children sharing the same missing parent `zz`. -/
def convC3 : ParsedConversation :=
  ⟨[], [mkUserMsg "a" (some "zz"), mkUserMsg "b" (some "zz")], "c3.jsonl", 2, []⟩

def rootM : ConversationMessage := mkUserMsg "r" none

def aM : ConversationMessage := mkUserMsg "a" (some "r")

def bM : ConversationMessage := mkUserMsg "b" (some "a")

def cM : ConversationMessage := mkUserMsg "c" (some "b")

/-- A second message carrying the chain leaf's uuid `c`. -/
def shadowM : ConversationMessage := mkUserMsg "c" none

def sumC : SummaryMessage := ⟨"sum", "c"⟩

/-- The chain root→A→B→C plus a later message that shadows C's uuid in
the identifier map. -/
def convC4bad : ParsedConversation :=
  ⟨[sumC], [rootM, aM, bM, cM, shadowM], "c4.jsonl", 6, []⟩

/-- The plain chain root→A→B→C with a summary pointing at C. -/
def convC4good : ParsedConversation :=
  ⟨[sumC], [rootM, aM, bM, cM], "c4.jsonl", 5, []⟩

/-- Exactly two messages sharing the uuid `x`. -/
def convC5 : ParsedConversation :=
  ⟨[], [mkUserMsg "x" none, mkUserMsg "x" none], "c5.jsonl", 2, []⟩

/-- A summary whose `leafUuid` matches no message. -/
def convC6a : ParsedConversation :=
  ⟨[⟨"s", "nope"⟩], [mkUserMsg "a" none, mkUserMsg "b" (some "a")], "c6.jsonl", 3, []⟩

/-- A conversation with messages but no summaries. -/
def convC6b : ParsedConversation :=
  ⟨[], [mkUserMsg "a" none], "c6.jsonl", 1, []⟩

/-- A conversation with a summary but zero messages. -/
def convC7 : ParsedConversation :=
  ⟨[⟨"s", "x"⟩], [], "c7.jsonl", 1, []⟩

/-- Two root messages: the null parent is referenced twice. -/
def convC8two : ParsedConversation :=
  ⟨[], [mkUserMsg "a" none, mkUserMsg "b" none], "c8.jsonl", 2, []⟩

/-- A single root message: no parent is referenced more than once. -/
def convC8one : ParsedConversation :=
  ⟨[], [mkUserMsg "a" none], "c8.jsonl", 1, []⟩

/-- An acyclic three-message chain with a summary at its leaf. -/
def convC10 : ParsedConversation :=
  ⟨[⟨"s", "c"⟩],
   [mkUserMsg "r" none, mkUserMsg "a" (some "r"), mkUserMsg "c" (some "a")],
   "c10.jsonl", 3, []⟩

/-- An unrecognized object entry, a blank line, a summary and a user
message. -/
def linesC1 : List LineContent :=
  [.json (.obj [("type", .str "progress")]), .blank,
   .json (.obj [("type", .str "summary"), ("summary", .str "s"), ("leafUuid", .str "m1")]),
   .json (.obj [("type", .str "user"), ("uuid", .str "m1"), ("parentUuid", .null)])]

/-- Two decodable entries among blank lines. -/
def linesC9 : List LineContent :=
  [.blank,
   .json (.obj [("type", .str "summary"), ("summary", .str "s"), ("leafUuid", .str "m1")]),
   .json (.obj [("type", .str "user"), ("uuid", .str "m1"), ("parentUuid", .null)]),
   .blank]

/-! ## Helper lemmas -/

theorem beq_symm_str (x y : String) : (x == y) = (y == x) := by
  rw [Bool.eq_iff_iff]; simp only [beq_iff_eq]; exact eq_comm

theorem contains_map_uuid (all : List ConversationMessage) (p : String) :
    (allUuids all).contains p = all.any (fun x => x.uuid == p) := by
  induction all with
  | nil => rfl
  | cons a t ih =>
      simp only [allUuids, List.map_cons, List.contains_cons, List.any_cons]
      simp only [allUuids] at ih
      rw [ih, beq_symm_str p a.uuid]

theorem dupPass_eq_spec (msgs : List ConversationMessage) :
    ∀ (pre : List ConversationMessage) (seen : List String) (k : Nat),
    (∀ u, seen.contains u = pre.any (fun x => x.uuid == u)) →
    dupPass seen pre.length k msgs = dupSpecAux pre k msgs := by
  induction msgs with
  | nil => intro pre seen k _; rfl
  | cons m rest ih =>
      intro pre seen k hseen
      have hcond : seen.contains m.uuid = pre.any (fun x => x.uuid == m.uuid) := hseen m.uuid
      have hinv : ∀ u, (m.uuid :: seen).contains u = (pre ++ [m]).any (fun x => x.uuid == u) := by
        intro u
        rw [List.contains_cons, List.any_append, hseen u]
        simp only [List.any_cons, List.any_nil, Bool.or_false]
        rw [beq_symm_str u m.uuid, Bool.or_comm]
      have htail : dupPass (m.uuid :: seen) (pre.length + 1) k rest = dupSpecAux (pre ++ [m]) k rest := by
        have := ih (pre ++ [m]) (m.uuid :: seen) k hinv
        simpa [List.length_append] using this
      simp only [dupPass, dupSpecAux]
      rw [hcond, htail]
      cases hC : pre.any (fun x => x.uuid == m.uuid) <;> simp [hC]

theorem orphanPass_eq_spec (all : List ConversationMessage) (msgs : List ConversationMessage) :
    ∀ (idx k : Nat),
    orphanPass (allUuids all) idx k msgs = orphanSpecAux idx k all msgs := by
  induction msgs with
  | nil => intro idx k; rfl
  | cons m rest ih =>
      intro idx k
      cases hp : m.parentUuid with
      | none => simp only [orphanPass, orphanSpecAux, hp, ih]; simp
      | some p =>
          simp only [orphanPass, orphanSpecAux, hp, ih]
          rw [contains_map_uuid all p]
          cases hC : (!(p == "") && !(all.any fun x => x.uuid == p)) <;> simp [hC]

theorem orphanSpecAux_length (all : List ConversationMessage) (msgs : List ConversationMessage) :
    ∀ (idx k : Nat),
    (orphanSpecAux idx k all msgs).length = msgs.countP (truthyOrphan all) := by
  induction msgs with
  | nil => intro idx k; rfl
  | cons m rest ih =>
      intro idx k
      cases hp : m.parentUuid with
      | none => simp [orphanSpecAux, truthyOrphan, hp, ih, List.countP_cons]
      | some p =>
          cases hC : (!(p == "") && !(all.any fun x => x.uuid == p)) <;>
            simp [orphanSpecAux, truthyOrphan, hp, hC, ih, List.countP_cons]

theorem mapGet_mem {msgs : List ConversationMessage} {u : String} {m : ConversationMessage}
    (h : mapGet msgs u = some m) : m ∈ msgs := by
  have := List.mem_of_find?_eq_some h
  simpa using this

theorem walkBranch_mem (msgs : List ConversationMessage) :
    ∀ (fuel : Nat) (cur : Option String) (acc : List ConversationMessage),
    (∀ x ∈ acc, x ∈ msgs) → ∀ m ∈ walkBranch msgs fuel cur acc, m ∈ msgs := by
  intro fuel
  induction fuel with
  | zero => intro cur acc hacc m hm; exact hacc m hm
  | succ f ih =>
      intro cur acc hacc m hm
      cases cur with
      | none => exact hacc m hm
      | some u =>
          cases hget : mapGet msgs u with
          | none =>
              rw [walkBranch, hget] at hm
              exact hacc m hm
          | some x =>
              rw [walkBranch, hget] at hm
              refine ih x.parentUuid (x :: acc) ?_ m hm
              intro y hy
              rcases List.mem_cons.mp hy with rfl | hy'
              · exact mapGet_mem hget
              · exact hacc y hy'

/-! ## Claim theorems -/

/-- Claim C5: in the validation of `parseAndValidateConversation`, the
second and every later occurrence of a repeated uuid each produce a
ParseError describing the duplicate (placed right after the pre-existing
parse errors, at line `index + summaries.length + 1`), the first
occurrence never does, and for exactly two messages sharing one
identifier exactly one duplicate error is reported. -/
theorem parseAndValidate_duplicate_errors :
    (∀ conv : ParsedConversation, ∃ rest,
      (validateConversation conv).parseErrors =
        conv.parseErrors ++
          (dupSpecAux [] conv.summaries.length conv.messages ++ rest)) ∧
    (validateConversation convC5).parseErrors = [⟨2, "Duplicate UUID: x", ""⟩] := by
  constructor
  · intro conv
    refine ⟨orphanPass (allUuids conv.messages) 0 conv.summaries.length conv.messages, ?_⟩
    have h : dupPass [] 0 conv.summaries.length conv.messages =
        dupSpecAux [] conv.summaries.length conv.messages :=
      dupPass_eq_spec conv.messages [] [] conv.summaries.length (fun _ => rfl)
    simp only [validateConversation, validationErrors]
    rw [h]
  · decide

/-- Claim C3 (counterexample): two children sharing the missing parent
`zz` produce two orphan ParseErrors — one per child — not one in total
for that missing parent. -/
theorem validateConversation_orphan_counterexample :
    (validateConversation convC3).parseErrors =
      [⟨1, "Orphaned message: parent UUID zz not found", ""⟩,
       ⟨2, "Orphaned message: parent UUID zz not found", ""⟩] ∧
    (validateConversation convC3).parseErrors.length ≠ 1 := by
  constructor
  · decide
  · decide

/-- Claim C3 (amended): each message whose truthy `parentUuid` matches
no message uuid is flagged exactly once, so children sharing one
missing parent produce one orphan error per child: the appended orphan
errors are exactly `orphanSpecAux`, whose length is the number of
orphaned messages. -/
theorem validateConversation_orphans_per_child :
    (∀ conv : ParsedConversation,
      (validateConversation conv).parseErrors =
        conv.parseErrors ++
          (dupPass [] 0 conv.summaries.length conv.messages ++
            orphanSpecAux 0 conv.summaries.length conv.messages conv.messages)) ∧
    (∀ conv : ParsedConversation,
      (orphanSpecAux 0 conv.summaries.length conv.messages conv.messages).length =
        conv.messages.countP (truthyOrphan conv.messages)) := by
  constructor
  · intro conv
    simp only [validateConversation, validationErrors]
    rw [orphanPass_eq_spec]
  · intro conv
    exact orphanSpecAux_length conv.messages conv.messages 0 conv.summaries.length

/-- Claim C6: with at least one summary and one message but no message
matching the first summary's `leafUuid`, `getActiveBranch` returns the
full message list verbatim; with no summaries or no messages it returns
the empty list. -/
theorem getActiveBranch_fallback_and_empty :
    (∀ (conv : ParsedConversation) (s : SummaryMessage) (ss : List SummaryMessage),
      conv.summaries = s :: ss → conv.messages ≠ [] →
      (∀ m ∈ conv.messages, m.uuid ≠ s.leafUuid) →
      getActiveBranch conv = conv.messages) ∧
    (∀ conv : ParsedConversation, conv.summaries = [] ∨ conv.messages = [] →
      getActiveBranch conv = []) := by
  constructor
  · rintro ⟨sums, msgs, fp, lc, pe⟩ s ss hs hm hnone
    dsimp only at hs hm hnone ⊢
    subst hs
    obtain ⟨m0, ms, rfl⟩ : ∃ m0 ms, msgs = m0 :: ms := by
      cases msgs with
      | nil => exact absurd rfl hm
      | cons a l => exact ⟨a, l, rfl⟩
    have hget : mapGet (m0 :: ms) s.leafUuid = none := by
      unfold mapGet
      rw [List.find?_eq_none]
      intro x hx
      have hx' : x ∈ m0 :: ms := List.mem_reverse.mp hx
      simp [hnone x hx']
    simp [getActiveBranch, hget]
  · rintro ⟨sums, msgs, fp, lc, pe⟩ h
    rcases h with h | h
    · dsimp only at h; subst h; cases msgs <;> rfl
    · dsimp only at h; subst h; cases sums <;> rfl

/-- Claim C6 (witness): the fallback case on a summary whose leaf
matches nothing, and the empty case on a conversation without
summaries. -/
theorem getActiveBranch_fallback_and_empty_witness :
    getActiveBranch convC6a = convC6a.messages ∧ getActiveBranch convC6b = [] :=
  ⟨getActiveBranch_fallback_and_empty.1 convC6a ⟨"s", "nope"⟩ [] rfl (by decide) (by decide),
   getActiveBranch_fallback_and_empty.2 convC6b (Or.inl rfl)⟩

/-- Claim C7: on a conversation with zero messages the aggregator
returns the zero/empty baseline: every numeric statistic is 0, `models`
is empty and `branches` is 0. -/
theorem calculateConversationStats_empty (getTime : String → Int)
    (conv : ParsedConversation) (h : conv.messages = []) :
    calculateConversationStats getTime conv =
      ⟨0, 0, 0, 0, ⟨0, 0, 0, 0⟩, 0, 0, 0, [], 0⟩ := by
  simp [calculateConversationStats, h]

/-- Claim C7 (witness): the baseline on a concrete empty conversation. -/
theorem calculateConversationStats_empty_witness :
    calculateConversationStats (fun _ => 0) convC7 =
      ⟨0, 0, 0, 0, ⟨0, 0, 0, 0⟩, 0, 0, 0, [], 0⟩ :=
  calculateConversationStats_empty (fun _ => 0) convC7 rfl

/-- Claim C10: when the parent links contain no cycle (so the source's
walk terminates), every message returned by `getActiveBranch` is an
element of `conversation.messages` — in the parent-walk case, the
fallback case and the empty case alike. -/
theorem getActiveBranch_members (conv : ParsedConversation)
    (h : parentLinksTerminate conv = true) :
    (getActiveBranch conv).all (fun m => conv.messages.contains m) = true := by
  rw [List.all_eq_true]
  intro m hmem
  have hmm : m ∈ conv.messages := by
    obtain ⟨sums, msgs, fp, lc, pe⟩ := conv
    dsimp only at hmem ⊢
    cases sums with
    | nil => simp [getActiveBranch] at hmem
    | cons s ss =>
        cases msgs with
        | nil => simp [getActiveBranch] at hmem
        | cons m0 ms =>
            by_cases hg : (mapGet (m0 :: ms) s.leafUuid).isNone = true
            · simpa [getActiveBranch, hg] using hmem
            · simp only [getActiveBranch, hg, if_false] at hmem
              exact walkBranch_mem (m0 :: ms) _ _ []
                (fun x hx => absurd hx (List.not_mem_nil x)) m hmem
  rw [List.contains_iff_exists_mem_beq]
  exact ⟨m, hmm, by simp⟩

/-- Claim C10 (witness): the subset property evaluated on a concrete
acyclic conversation. -/
theorem getActiveBranch_members_witness :
    (getActiveBranch convC10).all (fun m => convC10.messages.contains m) = true :=
  getActiveBranch_members convC10 (by decide)

theorem readLinesAux_length (lines : List LineContent) :
    ∀ (n : Nat), (∀ l ∈ lines, isMalformedLine l = false) →
    (readLinesAux lines n).1.length = lines.countP (fun l => !isBlankLine l) ∧
    (readLinesAux lines n).2 = none := by
  induction lines with
  | nil => intro n _; exact ⟨rfl, rfl⟩
  | cons l rest ih =>
      intro n h
      have hrest := ih (n + 1) (fun x hx => h x (List.mem_cons_of_mem l hx))
      cases l with
      | blank =>
          simp only [readLinesAux]
          rw [List.countP_cons]
          have hb : (!isBlankLine LineContent.blank) = false := rfl
          exact ⟨by simp [hb, hrest.1], hrest.2⟩
      | json j =>
          simp only [readLinesAux]
          rw [List.countP_cons]
          have hb : (!isBlankLine (LineContent.json j)) = true := rfl
          exact ⟨by simp [hb, hrest.1], hrest.2⟩
      | malformed m =>
          have := h _ (List.mem_cons_self _ rest)
          simp [isMalformedLine] at this

theorem classifyLoop_lineCount (entries : List Json) :
    ∀ (lc : Nat) (r : List Json × List Json × List ParseError × Nat),
    classifyLoop entries lc = .ok r → r.2.2.2 = lc + entries.length := by
  induction entries with
  | nil =>
      intro lc r h
      simp only [classifyLoop] at h
      cases h
      rfl
  | cons e rest ih =>
      intro lc r h
      simp only [classifyLoop] at h
      split at h
      · cases hc : classifyLoop rest (lc + 1) with
        | error msg => rw [hc] at h; simp [Except.map] at h
        | ok r' =>
            rw [hc] at h
            simp only [Except.map] at h
            cases h
            have := ih (lc + 1) r' hc
            simp only [List.length_cons]
            omega
      · split at h
        · simp at h
        · cases hc : classifyLoop rest (lc + 1) with
          | error msg => rw [hc] at h; simp [Except.map] at h
          | ok r' =>
              rw [hc] at h
              simp only [Except.map] at h
              cases h
              have := ih (lc + 1) r' hc
              simp only [List.length_cons]
              omega
        · cases hc : classifyLoop rest (lc + 1) with
          | error msg => rw [hc] at h; simp [Except.map] at h
          | ok r' =>
              rw [hc] at h
              simp only [Except.map] at h
              cases h
              have := ih (lc + 1) r' hc
              simp only [List.length_cons]
              omega

/-- Claim C9: when no line fails to decode, the generator yields one
entry per non-blank line, and whenever `parseConversation` returns a
result its `lineCount` equals that same count of non-blank lines. -/
theorem parseConversation_lineCount (fp : String) (lines : List LineContent)
    (h : ∀ l ∈ lines, isMalformedLine l = false) :
    (readConversationLines lines).1.length = lines.countP (fun l => !isBlankLine l) ∧
    ((parseConversation fp lines).isOk = true →
      lineCountOf (parseConversation fp lines) = lines.countP (fun l => !isBlankLine l)) := by
  have hr := readLinesAux_length lines 1 h
  refine ⟨hr.1, ?_⟩
  intro hok
  unfold parseConversation at hok ⊢
  cases hc : classifyLoop (readConversationLines lines).1 0 with
  | error msg =>
      rw [hc] at hok
      simp [Except.isOk, Except.toBool] at hok
  | ok r =>
      have hl := classifyLoop_lineCount (readConversationLines lines).1 0 r hc
      dsimp only
      simp only [lineCountOf]
      rw [hl]
      simpa [readConversationLines] using hr.1

/-- Claim C9 (witness): a concrete input with two JSON lines among two
blank lines yields two entries and lineCount 2. -/
theorem parseConversation_lineCount_witness :
    (readConversationLines linesC9).1.length = linesC9.countP (fun l => !isBlankLine l) ∧
    lineCountOf (parseConversation "c9.jsonl" linesC9) =
      linesC9.countP (fun l => !isBlankLine l) :=
  have h := parseConversation_lineCount "c9.jsonl" linesC9 (by decide)
  ⟨h.1, h.2 (by decide)⟩

theorem readLines_mem (lines : List LineContent) :
    ∀ (n : Nat) (e : Json), e ∈ (readLinesAux lines n).1 → LineContent.json e ∈ lines := by
  induction lines with
  | nil => intro n e he; simp [readLinesAux] at he
  | cons l rest ih =>
      intro n e he
      cases l with
      | blank => exact List.mem_cons_of_mem _ (ih (n + 1) e (by simpa [readLinesAux] using he))
      | json j =>
          simp only [readLinesAux] at he
          rcases List.mem_cons.mp he with rfl | he'
          · exact List.mem_cons_self _ _
          · exact List.mem_cons_of_mem _ (ih (n + 1) e he')
      | malformed m => simp [readLinesAux] at he

theorem classifyLoop_objectLike (entries : List Json) :
    ∀ (lc : Nat), (∀ e ∈ entries, jsObjectLike e = true) →
    ∃ r, classifyLoop entries lc = .ok r ∧
      (∀ e ∈ r.2.2.1, e.error = "Unknown entry type") ∧
      r.2.2.1.map (fun e => e.content) =
        (entries.filter unrecognizedEntry).map serializeJson := by
  induction entries with
  | nil => intro lc _; exact ⟨([], [], [], lc), rfl, by simp, by simp⟩
  | cons e rest ih =>
      intro lc h
      obtain ⟨r', hr', hall, hmap⟩ := ih (lc + 1) (fun x hx => h x (List.mem_cons_of_mem e hx))
      by_cases hsum : isSummaryMessage e = true
      · refine ⟨(e :: r'.1, r'.2.1, r'.2.2.1, r'.2.2.2), ?_, hall, ?_⟩
        · simp [classifyLoop, hsum, hr', Except.map]
        · have hu : unrecognizedEntry e = false := by simp [unrecognizedEntry, hsum]
          simp [List.filter_cons, hu, hmap]
      · rw [Bool.not_eq_true] at hsum
        cases he : isConversationMessage e with
        | error msg =>
            exfalso
            have hobj := h e (List.mem_cons_self e rest)
            cases e <;> simp_all [isConversationMessage, jsObjectLike]
        | ok b =>
            cases b with
            | true =>
                refine ⟨(r'.1, e :: r'.2.1, r'.2.2.1, r'.2.2.2), ?_, hall, ?_⟩
                · simp [classifyLoop, hsum, he, hr', Except.map]
                · have hu : unrecognizedEntry e = false := by
                    simp [unrecognizedEntry, hsum, he]
                  simp [List.filter_cons, hu, hmap]
            | false =>
                refine ⟨(r'.1, r'.2.1,
                    ⟨lc + 1, "Unknown entry type", serializeJson e⟩ :: r'.2.2.1, r'.2.2.2),
                    ?_, ?_, ?_⟩
                · simp [classifyLoop, hsum, he, hr', Except.map]
                · intro x hx
                  rcases List.mem_cons.mp hx with rfl | hx'
                  · rfl
                  · exact hall x hx'
                · have hu : unrecognizedEntry e = true := by
                    simp [unrecognizedEntry, hsum, he]
                  simp [List.filter_cons, hu, hmap]

theorem failed_ne_unknown (n : Nat) (msg : String) :
    (("Failed to parse line " ++ toString n ++ ": " ++ msg) == "Unknown entry type") = false := by
  rw [beq_eq_false_iff_ne]
  intro hEq
  have h1 := congrArg String.length hEq
  rw [String.length_append, String.length_append, String.length_append] at h1
  have e1 : ("Failed to parse line ").length = 21 := rfl
  have e2 : (": ").length = 2 := rfl
  have e3 : ("Unknown entry type").length = 18 := rfl
  rw [e1, e2, e3] at h1
  omega

/-- Claim C1 (counterexample): a line that parses as the JSON number 5
is valid JSON and is not a summary, user or assistant entry, yet
`parseConversation` does not record a ParseError for it: the `in`
operator inside `isConversationMessage` throws a TypeError that is
rethrown to the caller, so no `ParsedConversation` is returned at
all. -/
theorem parseConversation_primitive_counterexample :
    parseConversation "log.jsonl" [LineContent.json (Json.num 5)] =
      Except.error "TypeError: Cannot use 'in' operator to search for 'uuid' in entry" := by
  rfl

/-- Claim C1 (amended): for every input line that parses as a JSON
object or array but is not recognized as a summary, user or assistant
entry, `parseConversation` records one ParseError whose content is the
serialized entry and still returns a complete `ParsedConversation`; a
line whose JSON value is a primitive (number, string, boolean or null)
instead makes the membership test of the classifier throw a TypeError
that reaches the caller. -/
theorem parseConversation_unrecognized (fp : String) (lines : List LineContent)
    (h : lines.all (fun l =>
        match l with
        | .json j => jsObjectLike j
        | _ => true) = true) :
    (parseConversation fp lines).isOk = true ∧
    ((parseErrorsOf (parseConversation fp lines)).filter
        (fun e => e.error == "Unknown entry type")).map (fun e => e.content) =
      ((readConversationLines lines).1.filter unrecognizedEntry).map serializeJson := by
  have hmem : ∀ e ∈ (readConversationLines lines).1, jsObjectLike e = true := by
    intro e he
    have hj : LineContent.json e ∈ lines := readLines_mem lines 1 e he
    have := List.all_eq_true.mp h _ hj
    simpa using this
  obtain ⟨r, hr, hall, hmap⟩ := classifyLoop_objectLike (readConversationLines lines).1 0 hmem
  unfold parseConversation
  rw [hr]
  refine ⟨rfl, ?_⟩
  simp only [parseErrorsOf]
  rw [List.filter_append]
  have hfirst : r.2.2.1.filter (fun e => e.error == "Unknown entry type") = r.2.2.1 := by
    rw [List.filter_eq_self]
    intro x hx
    simp [hall x hx]
  rw [hfirst]
  cases hd : (readConversationLines lines).2 with
  | none => simp [hmap]
  | some ee => simp [List.filter, failed_ne_unknown ee.1 ee.2, hmap]

/-- Claim C1 (witness): a concrete input whose unrecognized object
entry is recorded with its serialization as content while the whole
parse succeeds. -/
theorem parseConversation_unrecognized_witness :
    (parseConversation "log.jsonl" linesC1).isOk = true ∧
    ((parseErrorsOf (parseConversation "log.jsonl" linesC1)).filter
        (fun e => e.error == "Unknown entry type")).map (fun e => e.content) =
      ((readConversationLines linesC1).1.filter unrecognizedEntry).map serializeJson ∧
    ((parseErrorsOf (parseConversation "log.jsonl" linesC1)).filter
        (fun e => e.error == "Unknown entry type")).map (fun e => e.content) =
      ["\x7b\"type\":\"progress\"\x7d"] :=
  have h := parseConversation_unrecognized "log.jsonl" linesC1 (by decide)
  ⟨h.1, h.2, by decide⟩

theorem find_unique_uuid (l : List ConversationMessage) (x : ConversationMessage)
    (hx : x ∈ l) (hu : ∀ y ∈ l, y.uuid = x.uuid → y = x) :
    l.find? (fun m => m.uuid == x.uuid) = some x := by
  induction l with
  | nil => cases hx
  | cons a rest ih =>
      by_cases ha : a.uuid = x.uuid
      · have hax : a = x := hu a (List.mem_cons_self a rest) ha
        subst hax
        simp [List.find?]
      · have hpred : (a.uuid == x.uuid) = false := by simp [ha]
        rw [List.find?, hpred]
        have hx' : x ∈ rest := by
          rcases List.mem_cons.mp hx with rfl | hx'
          · exact absurd rfl ha
          · exact hx'
        exact ih hx' (fun y hy hyu => hu y (List.mem_cons_of_mem a hy) hyu)

theorem mapGet_unique (msgs : List ConversationMessage) (x : ConversationMessage)
    (hx : x ∈ msgs) (hu : ∀ y ∈ msgs, y.uuid = x.uuid → y = x) :
    mapGet msgs x.uuid = some x := by
  unfold mapGet
  exact find_unique_uuid msgs.reverse x (List.mem_reverse.mpr hx)
    (fun y hy hyu => hu y (List.mem_reverse.mp hy) hyu)

theorem walkBranch_step (msgs : List ConversationMessage) (f : Nat) (u : String)
    (m : ConversationMessage) (acc : List ConversationMessage)
    (h : mapGet msgs u = some m) :
    walkBranch msgs (f + 1) (some u) acc = walkBranch msgs f m.parentUuid (m :: acc) := by
  simp [walkBranch, h]

/-- Claim C4 (counterexample): a conversation that contains the chain
root→A→B→C with the first summary pointing at C's uuid, plus one later
message shadowing C's uuid in the identifier map, makes
`getActiveBranch` return just the shadowing message instead of
`[root, A, B, C]`. -/
theorem getActiveBranch_chain_counterexample :
    getActiveBranch convC4bad = [shadowM] ∧
    rootM ∈ convC4bad.messages ∧ aM ∈ convC4bad.messages ∧
    bM ∈ convC4bad.messages ∧ cM ∈ convC4bad.messages ∧
    rootM.parentUuid = none ∧ aM.parentUuid = some rootM.uuid ∧
    bM.parentUuid = some aM.uuid ∧ cM.parentUuid = some bM.uuid ∧
    convC4bad.summaries = [sumC] ∧ sumC.leafUuid = cM.uuid ∧
    getActiveBranch convC4bad ≠ [rootM, aM, bM, cM] := by
  refine ⟨by decide, by decide, by decide, by decide, by decide, by decide,
    by decide, by decide, by decide, by decide, by decide, by decide⟩

/-- Claim C4 (amended): for every conversation containing the parent
chain root→A→B→C whose four uuids are pairwise distinct and are carried
by no other message of the conversation, with the first summary's
`leafUuid` equal to C's uuid, `getActiveBranch` returns exactly
`[root, A, B, C]`. -/
theorem getActiveBranch_chain (conv : ParsedConversation)
    (root A B C : ConversationMessage) (s : SummaryMessage) (ss : List SummaryMessage)
    (hs : conv.summaries = s :: ss) (hleaf : s.leafUuid = C.uuid)
    (hr : root ∈ conv.messages) (ha : A ∈ conv.messages)
    (hb : B ∈ conv.messages) (hc : C ∈ conv.messages)
    (hpr : root.parentUuid = none) (hpa : A.parentUuid = some root.uuid)
    (hpb : B.parentUuid = some A.uuid) (hpc : C.parentUuid = some B.uuid)
    (hdist : [root.uuid, A.uuid, B.uuid, C.uuid].Nodup)
    (huniq : ∀ m ∈ conv.messages,
      (m.uuid = root.uuid → m = root) ∧ (m.uuid = A.uuid → m = A) ∧
      (m.uuid = B.uuid → m = B) ∧ (m.uuid = C.uuid → m = C)) :
    getActiveBranch conv = [root, A, B, C] := by
  obtain ⟨sums, msgs, fp, lc, pe⟩ := conv
  dsimp only at hs hr ha hb hc huniq ⊢
  subst hs
  have hgetR : mapGet msgs root.uuid = some root :=
    mapGet_unique msgs root hr (fun y hy hyu => (huniq y hy).1 hyu)
  have hgetA : mapGet msgs A.uuid = some A :=
    mapGet_unique msgs A ha (fun y hy hyu => (huniq y hy).2.1 hyu)
  have hgetB : mapGet msgs B.uuid = some B :=
    mapGet_unique msgs B hb (fun y hy hyu => (huniq y hy).2.2.1 hyu)
  have hgetC : mapGet msgs C.uuid = some C :=
    mapGet_unique msgs C hc (fun y hy hyu => (huniq y hy).2.2.2 hyu)
  have hnodup4 : ([root, A, B, C] : List ConversationMessage).Nodup := by
    have : [root.uuid, A.uuid, B.uuid, C.uuid] =
        ([root, A, B, C] : List ConversationMessage).map (fun m => m.uuid) := rfl
    rw [this] at hdist
    exact List.Nodup.of_map _ hdist
  have hsub : ([root, A, B, C] : List ConversationMessage) ⊆ msgs := by
    intro x hx
    simp only [List.mem_cons, List.not_mem_nil, or_false] at hx
    rcases hx with rfl | rfl | rfl | rfl
    exacts [hr, ha, hb, hc]
  have hlen : 4 ≤ msgs.length :=
    (List.subperm_of_subset hnodup4 hsub).length_le
  obtain ⟨m0, ms, rfl⟩ : ∃ m0 ms, msgs = m0 :: ms := by
    cases msgs with
    | nil => simp at hlen
    | cons a l => exact ⟨a, l, rfl⟩
  obtain ⟨k, hk⟩ : ∃ k, (m0 :: ms).length = k + 4 :=
    ⟨(m0 :: ms).length - 4, by omega⟩
  have hwalk : walkBranch (m0 :: ms) ((m0 :: ms).length + 1) (some C.uuid) [] =
      [root, A, B, C] := by
    rw [show (m0 :: ms).length + 1 = (k + 4) + 1 by omega]
    rw [walkBranch_step _ _ _ C _ hgetC, hpc]
    rw [show k + 4 = (k + 3) + 1 by omega]
    rw [walkBranch_step _ _ _ B _ hgetB, hpb]
    rw [show k + 3 = (k + 2) + 1 by omega]
    rw [walkBranch_step _ _ _ A _ hgetA, hpa]
    rw [show k + 2 = (k + 1) + 1 by omega]
    rw [walkBranch_step _ _ _ root _ hgetR, hpr]
    rfl
  have hnotnone : (mapGet (m0 :: ms) s.leafUuid).isNone = false := by
    rw [hleaf, hgetC]; rfl
  simp only [getActiveBranch, hleaf, hgetC, Option.isNone_some, Bool.false_eq_true,
    if_false]
  exact hwalk

/-- Claim C4 (witness): the amended statement evaluated on the plain
four-message chain. -/
theorem getActiveBranch_chain_witness :
    getActiveBranch convC4good = [rootM, aM, bM, cM] :=
  getActiveBranch_chain convC4good rootM aM bM cM sumC [] rfl rfl
    (by decide) (by decide) (by decide) (by decide)
    rfl rfl rfl rfl (by decide) (by decide)

theorem beq_symm_gen {α : Type} [BEq α] [LawfulBEq α] (x y : α) : (x == y) = (y == x) := by
  rw [Bool.eq_iff_iff]; simp only [beq_iff_eq]; exact eq_comm

theorem lookupCount_cons {α : Type} [BEq α] (e : α × Nat) (rest : List (α × Nat)) (k : α) :
    lookupCount (e :: rest) k = if (e.1 == k) = true then e.2 else lookupCount rest k := by
  by_cases h : (e.1 == k) = true <;> simp [lookupCount, List.find?, h]

theorem lookupCount_bump {α : Type} [BEq α] [LawfulBEq α] (acc : List (α × Nat)) (k k' : α) :
    lookupCount (bumpCount acc k) k' =
      if (k' == k) = true then lookupCount acc k' + 1 else lookupCount acc k' := by
  induction acc with
  | nil =>
      simp only [bumpCount]
      rw [lookupCount_cons, beq_symm_gen k k']
      by_cases h : (k' == k) = true <;> simp [h, lookupCount]
  | cons e rest ih =>
      simp only [bumpCount]
      by_cases he : (e.1 == k) = true
      · rw [if_pos he]
        have hek : e.1 = k := by simpa using he
        subst hek
        rw [lookupCount_cons, lookupCount_cons, beq_symm_gen e.1 k']
        by_cases h2 : (k' == e.1) = true <;> simp [h2]
      · rw [if_neg he]
        by_cases h2 : (e.1 == k') = true
        · have h3 : (k' == k) = false := by
            rw [beq_eq_false_iff_ne]
            intro hkk
            have p2 : e.1 = k' := by simpa using h2
            have pe : ¬ e.1 = k := by simpa using he
            exact pe (p2.trans hkk)
          simp [lookupCount_cons, h2, h3]
        · simp [lookupCount_cons, h2, ih]

theorem bump_keys_mem {α : Type} [BEq α] [LawfulBEq α] (acc : List (α × Nat)) (k k' : α) :
    k' ∈ (bumpCount acc k).map Prod.fst ↔ k' ∈ acc.map Prod.fst ∨ k' = k := by
  induction acc with
  | nil => simp [bumpCount]
  | cons e rest ih =>
      by_cases he : (e.1 == k) = true
      · have hek : e.1 = k := by simpa using he
        subst hek
        simp only [bumpCount, beq_self_eq_true, if_true, List.map_cons, List.mem_cons]
        tauto
      · have hb : (e.1 == k) = false := by simpa using he
        have hstep : bumpCount (e :: rest) k = e :: bumpCount rest k := by
          simp [bumpCount, hb]
        rw [hstep, List.map_cons, List.mem_cons, ih, List.map_cons, List.mem_cons]
        tauto

theorem bump_keys_nodup {α : Type} [BEq α] [LawfulBEq α] (acc : List (α × Nat)) (k : α)
    (h : (acc.map Prod.fst).Nodup) : ((bumpCount acc k).map Prod.fst).Nodup := by
  induction acc with
  | nil => simp [bumpCount]
  | cons e rest ih =>
      by_cases he : (e.1 == k) = true
      · have hek : e.1 = k := by simpa using he
        subst hek
        simpa [bumpCount] using h
      · have hb : (e.1 == k) = false := by simpa using he
        rw [List.map_cons, List.nodup_cons] at h
        have hstep : bumpCount (e :: rest) k = e :: bumpCount rest k := by
          simp [bumpCount, hb]
        rw [hstep, List.map_cons, List.nodup_cons]
        refine ⟨?_, ih h.2⟩
        rw [bump_keys_mem]
        rintro (hmem | rfl)
        · exact h.1 hmem
        · exact he (by simp)

theorem fold_bump_lookup {α : Type} [BEq α] [LawfulBEq α] (ks : List α) :
    ∀ (acc : List (α × Nat)) (k : α),
    lookupCount (ks.foldl bumpCount acc) k =
      lookupCount acc k + ks.countP (fun x => x == k) := by
  induction ks with
  | nil => intro acc k; simp
  | cons x rest ih =>
      intro acc k
      simp only [List.foldl_cons, List.countP_cons]
      rw [ih (bumpCount acc x) k, lookupCount_bump, beq_symm_gen k x]
      by_cases h : (x == k) = true
      · simp [h]; omega
      · simp [h]

theorem fold_bump_keys_mem {α : Type} [BEq α] [LawfulBEq α] (ks : List α) :
    ∀ (acc : List (α × Nat)) (k : α),
    k ∈ (ks.foldl bumpCount acc).map Prod.fst ↔ k ∈ acc.map Prod.fst ∨ k ∈ ks := by
  induction ks with
  | nil => intro acc k; simp
  | cons x rest ih =>
      intro acc k
      simp only [List.foldl_cons, List.mem_cons]
      rw [ih (bumpCount acc x) k, bump_keys_mem]
      tauto

theorem fold_bump_keys_nodup {α : Type} [BEq α] [LawfulBEq α] (ks : List α) :
    ∀ (acc : List (α × Nat)), (acc.map Prod.fst).Nodup →
    ((ks.foldl bumpCount acc).map Prod.fst).Nodup := by
  induction ks with
  | nil => intro acc h; simpa using h
  | cons x rest ih =>
      intro acc h
      exact ih (bumpCount acc x) (bump_keys_nodup acc x h)

theorem entry_eq_lookupCount {α : Type} [BEq α] [LawfulBEq α] (l : List (α × Nat)) :
    (l.map Prod.fst).Nodup → ∀ e ∈ l, e.2 = lookupCount l e.1 := by
  induction l with
  | nil => intro _ e he; cases he
  | cons a rest ih =>
      intro hn e he
      rw [List.map_cons, List.nodup_cons] at hn
      rcases List.mem_cons.mp he with rfl | he'
      · simp [lookupCount_cons]
      · have hne : a.1 ≠ e.1 := by
          intro hEq
          exact hn.1 (hEq ▸ List.mem_map_of_mem Prod.fst he')
        rw [lookupCount_cons]
        have hb : (a.1 == e.1) = false := by simp [hne]
        rw [hb]
        simp only [Bool.false_eq_true, if_false]
        exact ih hn.2 e he'

/-- Claim C8: the `branches` statistic equals the number of distinct
`parentUuid` values (the null root parent included) referenced by more
than one message; in particular two null-parent roots count as one
branch and a single root as none. -/
theorem calculateConversationStats_branches :
    (∀ (getTime : String → Int) (conv : ParsedConversation),
      (calculateConversationStats getTime conv).branches =
        (conv.messages.map (fun m => m.parentUuid)).dedup.countP
          (fun p => decide (1 < conv.messages.countP (fun m => m.parentUuid == p)))) ∧
    (calculateConversationStats (fun _ => 0) convC8two).branches = 1 ∧
    (calculateConversationStats (fun _ => 0) convC8one).branches = 0 := by
  refine ⟨?_, by decide, by decide⟩
  intro getTime conv
  by_cases hempty : conv.messages.length = 0
  · have hnil : conv.messages = [] := List.length_eq_zero.mp hempty
    simp [calculateConversationStats, hempty, hnil]
  · have hbr : (calculateConversationStats getTime conv).branches =
        ((conv.messages.foldl (fun acc msg => bumpCount acc msg.parentUuid) []).filter
          (fun e => decide (1 < e.2))).length := by
      simp [calculateConversationStats, hempty]
    rw [hbr]
    have hfoldm : conv.messages.foldl (fun acc msg => bumpCount acc msg.parentUuid)
        ([] : List (Option String × Nat)) =
        (conv.messages.map (fun m => m.parentUuid)).foldl bumpCount [] :=
      (List.foldl_map _ _ conv.messages []).symm
    rw [hfoldm]
    set ks := conv.messages.map (fun m => m.parentUuid) with hks
    set final := ks.foldl bumpCount ([] : List (Option String × Nat)) with hfinal
    have hnodup : (final.map Prod.fst).Nodup := fold_bump_keys_nodup ks [] (by simp)
    rw [← List.countP_eq_length_filter]
    have h2 : final.countP (fun e => decide (1 < e.2)) =
        final.countP (fun e => decide (1 < lookupCount final e.1)) :=
      List.countP_congr (fun e he => by
        rw [← entry_eq_lookupCount final hnodup e he])
    rw [h2]
    have h3 : final.countP (fun e => decide (1 < lookupCount final e.1)) =
        (final.map Prod.fst).countP (fun u => decide (1 < lookupCount final u)) := by
      rw [List.countP_map]
      rfl
    rw [h3]
    have hperm : (final.map Prod.fst).Perm ks.dedup := by
      rw [List.perm_ext_iff_of_nodup hnodup (List.nodup_dedup ks)]
      intro a
      rw [fold_bump_keys_mem ks [] a, List.mem_dedup]
      simp
    rw [hperm.countP_eq]
    apply List.countP_congr
    intro u _
    have hl : lookupCount final u = ks.countP (fun x => x == u) := by
      rw [hfinal, fold_bump_lookup ks [] u]
      simp [lookupCount]
    have hk : ks.countP (fun x => x == u) =
        conv.messages.countP (fun m => m.parentUuid == u) := by
      rw [hks, List.countP_map]
      rfl
    rw [hl, hk]

theorem childrenGet_cons (e : Option String × List ConversationMessage)
    (rest : List (Option String × List ConversationMessage)) (k : Option String) :
    childrenGet (e :: rest) k =
      if (e.1 == k) = true then e.2 else childrenGet rest k := by
  by_cases h : (e.1 == k) = true <;> simp [childrenGet, List.find?, h]

theorem childrenGet_insert (acc : List (Option String × List ConversationMessage))
    (k k' : Option String) (m : ConversationMessage) :
    childrenGet (insertChild acc k m) k' =
      if k' = k then childrenGet acc k' ++ [m] else childrenGet acc k' := by
  induction acc with
  | nil =>
      by_cases h : k' = k
      · subst h; simp [insertChild, childrenGet, List.find?]
      · have hb : (k == k') = false := by simp [Ne.symm h]
        simp [insertChild, childrenGet, List.find?, hb, h]
  | cons e rest ih =>
      by_cases he : (e.1 == k) = true
      · have hek : e.1 = k := by simpa using he
        subst hek
        have hstep : insertChild (e :: rest) e.1 m = (e.1, e.2 ++ [m]) :: rest := by
          simp [insertChild]
        rw [hstep, childrenGet_cons, childrenGet_cons]
        by_cases h2 : (e.1 == k') = true
        · have : k' = e.1 := by have := h2; simp at this; exact this.symm
          simp [h2, this]
        · have : ¬ k' = e.1 := by
            intro hh; exact h2 (by simp [hh])
          simp [h2, this]
      · have hb : (e.1 == k) = false := by simpa using he
        have hstep : insertChild (e :: rest) k m = e :: insertChild rest k m := by
          simp [insertChild, hb]
        rw [hstep, childrenGet_cons, childrenGet_cons, ih]
        by_cases h2 : (e.1 == k') = true
        · have hk' : e.1 = k' := by simpa using h2
          have : ¬ k' = k := by
            intro hh
            exact he (by simp [hk', hh])
          simp [h2, this]
        · simp [h2]

theorem childrenGet_fold (msgs : List ConversationMessage) :
    ∀ (acc : List (Option String × List ConversationMessage)) (k : Option String),
    childrenGet (msgs.foldl (fun a m => insertChild a m.parentUuid m) acc) k =
      childrenGet acc k ++ msgs.filter (fun m => m.parentUuid == k) := by
  induction msgs with
  | nil => intro acc k; simp
  | cons m rest ih =>
      intro acc k
      simp only [List.foldl_cons, List.filter_cons]
      rw [ih (insertChild acc m.parentUuid m) k, childrenGet_insert]
      by_cases h : k = m.parentUuid
      · have hb : (m.parentUuid == k) = true := by simp [h]
        simp [h, hb]
      · have hb : (m.parentUuid == k) = false := by simp [Ne.symm h]
        simp [h, hb]

theorem childrenGet_childrenMapOf (msgs : List ConversationMessage) (k : Option String) :
    childrenGet (childrenMapOf msgs) k = msgs.filter (fun m => m.parentUuid == k) := by
  have := childrenGet_fold msgs [] k
  simpa [childrenMapOf, childrenGet] using this

theorem chainToRoot_root (msgs : List ConversationMessage) (f : Nat)
    (m : ConversationMessage) (h : m.parentUuid = none) :
    chainToRoot msgs f m = some [m] := by
  rw [chainToRoot, h]

theorem chainToRoot_step (msgs : List ConversationMessage) (f : Nat)
    (m par : ConversationMessage) (p : String) (hp : m.parentUuid = some p)
    (hfind : msgs.find? (fun x => x.uuid == p) = some par) :
    chainToRoot msgs (f + 1) m = (chainToRoot msgs f par).map (fun l => m :: l) := by
  rw [chainToRoot, hp]
  simp [hfind]

theorem chainToRoot_inv (msgs : List ConversationMessage) (f : Nat)
    (m : ConversationMessage) (l : List ConversationMessage)
    (h : chainToRoot msgs f m = some l) :
    (m.parentUuid = none ∧ l = [m]) ∨
    (∃ p par t f', m.parentUuid = some p ∧ f = f' + 1 ∧
      msgs.find? (fun x => x.uuid == p) = some par ∧
      chainToRoot msgs f' par = some t ∧ l = m :: t) := by
  rw [chainToRoot] at h
  cases hp : m.parentUuid with
  | none =>
      rw [hp] at h
      simp only [Option.some.injEq] at h
      exact Or.inl ⟨rfl, h.symm⟩
  | some p =>
      rw [hp] at h
      cases f with
      | zero => exact absurd h (by simp)
      | succ f' =>
          dsimp only at h
          cases hfind : msgs.find? (fun x => x.uuid == p) with
          | none => rw [hfind] at h; exact absurd h (by simp)
          | some par =>
              rw [hfind] at h
              dsimp only at h
              cases hc : chainToRoot msgs f' par with
              | none => rw [hc] at h; exact absurd h (by simp)
              | some t =>
                  rw [hc] at h
                  simp only [Option.map_some', Option.some.injEq] at h
                  exact Or.inr ⟨p, par, t, f', rfl, rfl, hfind, hc, h.symm⟩

theorem chainToRoot_mono (msgs : List ConversationMessage) :
    ∀ (f g : Nat) (m : ConversationMessage) (l : List ConversationMessage), f ≤ g →
    chainToRoot msgs f m = some l → chainToRoot msgs g m = some l := by
  intro f
  induction f with
  | zero =>
      intro g m l _ h
      rcases chainToRoot_inv msgs 0 m l h with ⟨hp, rfl⟩ | ⟨_, _, _, _, _, hf, _, _, _⟩
      · exact chainToRoot_root msgs g m hp
      · omega
  | succ f' ih =>
      intro g m l hfg h
      rcases chainToRoot_inv msgs (f' + 1) m l h with
        ⟨hp, rfl⟩ | ⟨p, par, t, f'', hp, hf, hfind, hc, rfl⟩
      · exact chainToRoot_root msgs g m hp
      · obtain rfl : f'' = f' := by omega
        obtain ⟨g', rfl⟩ : ∃ g', g = g' + 1 := ⟨g - 1, by omega⟩
        rw [chainToRoot_step msgs g' m par p hp hfind, ih g' par t (by omega) hc]
        rfl

theorem chainToRoot_unique (msgs : List ConversationMessage) (f g : Nat)
    (m : ConversationMessage) (l l' : List ConversationMessage)
    (h1 : chainToRoot msgs f m = some l) (h2 : chainToRoot msgs g m = some l') : l = l' := by
  have e1 := chainToRoot_mono msgs f (max f g) m l (le_max_left f g) h1
  have e2 := chainToRoot_mono msgs g (max f g) m l' (le_max_right f g) h2
  rw [e1] at e2
  exact (Option.some.injEq _ _ ▸ e2)

theorem chainToRoot_head (msgs : List ConversationMessage) (f : Nat)
    (m : ConversationMessage) (l : List ConversationMessage)
    (h : chainToRoot msgs f m = some l) : ∃ t, l = m :: t := by
  rcases chainToRoot_inv msgs f m l h with ⟨_, rfl⟩ | ⟨_, _, t, _, _, _, _, _, rfl⟩
  · exact ⟨[], rfl⟩
  · exact ⟨t, rfl⟩

theorem chainToRoot_mem (msgs : List ConversationMessage) :
    ∀ (f : Nat) (m : ConversationMessage) (l : List ConversationMessage),
    chainToRoot msgs f m = some l → ∀ x ∈ l, x = m ∨ x ∈ msgs := by
  intro f
  induction f with
  | zero =>
      intro m l h x hx
      rcases chainToRoot_inv msgs 0 m l h with ⟨_, rfl⟩ | ⟨_, _, _, _, _, hf, _, _, _⟩
      · simp only [List.mem_singleton] at hx
        exact Or.inl hx
      · omega
  | succ f' ih =>
      intro m l h x hx
      rcases chainToRoot_inv msgs (f' + 1) m l h with
        ⟨_, rfl⟩ | ⟨p, par, t, f'', _, hf, hfind, hc, rfl⟩
      · simp only [List.mem_singleton] at hx
        exact Or.inl hx
      · obtain rfl : f'' = f' := by omega
        rcases List.mem_cons.mp hx with rfl | hx'
        · exact Or.inl rfl
        · rcases ih par t hc x hx' with rfl | hxx
          · exact Or.inr (List.mem_of_find?_eq_some hfind)
          · exact Or.inr hxx

theorem chainToRoot_last (msgs : List ConversationMessage) :
    ∀ (f : Nat) (m : ConversationMessage) (l : List ConversationMessage),
    chainToRoot msgs f m = some l →
    ∃ r t, l = t ++ [r] ∧ r.parentUuid = none := by
  intro f
  induction f with
  | zero =>
      intro m l h
      rcases chainToRoot_inv msgs 0 m l h with ⟨hp, rfl⟩ | ⟨_, _, _, _, _, hf, _, _, _⟩
      · exact ⟨m, [], rfl, hp⟩
      · omega
  | succ f' ih =>
      intro m l h
      rcases chainToRoot_inv msgs (f' + 1) m l h with
        ⟨hp, rfl⟩ | ⟨p, par, t, f'', _, hf, hfind, hc, rfl⟩
      · exact ⟨m, [], rfl, hp⟩
      · obtain rfl : f'' = f' := by omega
        obtain ⟨r, t', rfl, hr⟩ := ih par t hc
        exact ⟨r, m :: t', rfl, hr⟩

theorem chainToRoot_suffix (msgs : List ConversationMessage) :
    ∀ (f : Nat) (m : ConversationMessage) (l : List ConversationMessage),
    chainToRoot msgs f m = some l →
    ∀ i : Fin l.length, ∃ g, chainToRoot msgs g (l.get i) = some (l.drop i) := by
  intro f
  induction f with
  | zero =>
      intro m l h i
      rcases chainToRoot_inv msgs 0 m l h with ⟨hp, rfl⟩ | ⟨_, _, _, _, _, hf, _, _, _⟩
      · obtain ⟨iv, hi⟩ := i
        have hiv : iv = 0 := by simp at hi; omega
        subst hiv
        exact ⟨0, by simpa using chainToRoot_root msgs 0 m hp⟩
      · omega
  | succ f' ih =>
      intro m l h i
      rcases chainToRoot_inv msgs (f' + 1) m l h with
        ⟨hp, rfl⟩ | ⟨p, par, t, f'', hp, hf, hfind, hc, rfl⟩
      · obtain ⟨iv, hi⟩ := i
        have hiv : iv = 0 := by simp at hi; omega
        subst hiv
        exact ⟨0, by simpa using chainToRoot_root msgs 0 m hp⟩
      · have hcf : chainToRoot msgs f' par = some t := by
          have hff : f'' = f' := by omega
          rwa [hff] at hc
        obtain ⟨iv, hi⟩ := i
        cases iv with
        | zero =>
            refine ⟨f' + 1, ?_⟩
            have : chainToRoot msgs (f' + 1) m = some (m :: t) := by
              rw [chainToRoot_step msgs f' m par p hp hfind, hcf]
              rfl
            simpa using this
        | succ j =>
            have hj : j < t.length := by simp at hi; omega
            obtain ⟨g, hg⟩ := ih par t hcf ⟨j, hj⟩
            exact ⟨g, by simpa using hg⟩

theorem chainToRoot_nodup (msgs : List ConversationMessage) (f : Nat)
    (m : ConversationMessage) (l : List ConversationMessage)
    (h : chainToRoot msgs f m = some l) : l.Nodup := by
  rw [List.nodup_iff_injective_get]
  intro i j hij
  obtain ⟨gi, hgi⟩ := chainToRoot_suffix msgs f m l h i
  obtain ⟨gj, hgj⟩ := chainToRoot_suffix msgs f m l h j
  rw [hij] at hgi
  have hdrop := chainToRoot_unique msgs gi gj (l.get j) _ _ hgi hgj
  have hlen := congrArg List.length hdrop
  rw [List.length_drop, List.length_drop] at hlen
  have hi := i.isLt
  have hj := j.isLt
  exact Fin.ext (by omega)

theorem chainToRoot_length (msgs : List ConversationMessage)
    (f : Nat) (m : ConversationMessage) (l : List ConversationMessage)
    (hm : m ∈ msgs) (h : chainToRoot msgs f m = some l) : l.length ≤ msgs.length := by
  have hsub : l ⊆ msgs := by
    intro x hx
    rcases chainToRoot_mem msgs f m l h x hx with rfl | hxx
    · exact hm
    · exact hxx
  exact (List.subperm_of_subset (chainToRoot_nodup msgs f m l h) hsub).length_le

theorem chainToRoot_min (msgs : List ConversationMessage) :
    ∀ (f : Nat) (m : ConversationMessage) (l : List ConversationMessage),
    chainToRoot msgs f m = some l → ∀ g, l.length ≤ g + 1 →
    chainToRoot msgs g m = some l := by
  intro f
  induction f with
  | zero =>
      intro m l h g _
      rcases chainToRoot_inv msgs 0 m l h with ⟨hp, rfl⟩ | ⟨_, _, _, _, _, hf, _, _, _⟩
      · exact chainToRoot_root msgs g m hp
      · omega
  | succ f' ih =>
      intro m l h g hg
      rcases chainToRoot_inv msgs (f' + 1) m l h with
        ⟨hp, rfl⟩ | ⟨p, par, t, f'', hp, hf, hfind, hc, rfl⟩
      · exact chainToRoot_root msgs g m hp
      · have hcf : chainToRoot msgs f' par = some t := by
          have hff : f'' = f' := by omega
          rwa [hff] at hc
        obtain ⟨tt, rfl⟩ := chainToRoot_head msgs f' par t hcf
        obtain ⟨g', rfl⟩ : ∃ g', g = g' + 1 := by
          refine ⟨g - 1, ?_⟩
          simp only [List.length_cons] at hg
          omega
        have ht : chainToRoot msgs g' par = some (par :: tt) := by
          apply ih par (par :: tt) hcf g'
          simp only [List.length_cons] at hg ⊢
          omega
        rw [chainToRoot_step msgs g' m par p hp hfind, ht]
        rfl

theorem chainToRoot_norm (msgs : List ConversationMessage)
    (f : Nat) (m : ConversationMessage) (l : List ConversationMessage)
    (hm : m ∈ msgs) (h : chainToRoot msgs f m = some l) :
    chainToRoot msgs msgs.length m = some l := by
  apply chainToRoot_min msgs f m l h
  have := chainToRoot_length msgs f m l hm h
  omega

theorem uuid_unique (msgs : List ConversationMessage)
    (hnd : (msgs.map (fun m => m.uuid)).Nodup) (x : ConversationMessage)
    (hx : x ∈ msgs) : ∀ y ∈ msgs, y.uuid = x.uuid → y = x := by
  intro y hy hyx
  exact List.inj_on_of_nodup_map hnd hy hx hyx

theorem find_self (msgs : List ConversationMessage)
    (hnd : (msgs.map (fun m => m.uuid)).Nodup) (m : ConversationMessage)
    (hm : m ∈ msgs) : msgs.find? (fun x => x.uuid == m.uuid) = some m :=
  find_unique_uuid msgs m hm (uuid_unique msgs hnd m hm)

theorem chain_child (msgs : List ConversationMessage)
    (hnd : (msgs.map (fun m => m.uuid)).Nodup) (f : Nat)
    (m c : ConversationMessage) (l : List ConversationMessage)
    (hm : m ∈ msgs) (hchain : chainToRoot msgs f m = some l)
    (hcp : c.parentUuid = some m.uuid) :
    chainToRoot msgs (f + 1) c = some (c :: l) := by
  rw [chainToRoot_step msgs f c m m.uuid hcp (find_self msgs hnd m hm), hchain]
  rfl

theorem child_not_mem_chain (msgs : List ConversationMessage)
    (hnd : (msgs.map (fun m => m.uuid)).Nodup) (f : Nat)
    (m c : ConversationMessage) (l : List ConversationMessage)
    (hm : m ∈ msgs) (hchain : chainToRoot msgs f m = some l)
    (hcp : c.parentUuid = some m.uuid) : c ∉ l := by
  intro hmem
  obtain ⟨i, hi⟩ := List.mem_iff_get.mp hmem
  obtain ⟨g, hg⟩ := chainToRoot_suffix msgs f m l hchain i
  rw [hi] at hg
  have hcc := chain_child msgs hnd f m c l hm hchain hcp
  have hdrop := chainToRoot_unique msgs g (f + 1) c _ _ hg hcc
  have hlen := congrArg List.length hdrop
  rw [List.length_drop, List.length_cons] at hlen
  have := i.isLt
  omega

theorem countNodesList_eq_sum : ∀ ns : List ConversationNode,
    countNodesList ns = (ns.map countNodes).sum := by
  intro ns
  induction ns with
  | nil => rfl
  | cons n rest ih => simp [countNodesList, ih]

theorem chain_pos_zero (msgs : List ConversationMessage) (f : Nat)
    (x : ConversationMessage) (lx : List ConversationMessage)
    (hlx : chainToRoot msgs f x = some lx) (i : Fin lx.length) (hi : i.val = 0) :
    lx.get i = x := by
  obtain ⟨t, rfl⟩ := chainToRoot_head msgs f x lx hlx
  have hfix : i = ⟨0, by simp⟩ := Fin.ext hi
  rw [hfix]
  rfl

theorem chain_mem_decomp (msgs : List ConversationMessage) (f : Nat)
    (x : ConversationMessage) (lx : List ConversationMessage)
    (hlx : chainToRoot msgs f x = some lx) (y : ConversationMessage) (hy : y ∈ lx) :
    ∃ (i : Fin lx.length) (g : Nat),
      lx.get i = y ∧ chainToRoot msgs g y = some (lx.drop i.val) := by
  obtain ⟨i, hi⟩ := List.mem_iff_get.mp hy
  obtain ⟨g, hg⟩ := chainToRoot_suffix msgs f x lx hlx i
  rw [hi] at hg
  exact ⟨i, g, hi, hg⟩

theorem buildNode_count (msgs : List ConversationMessage)
    (hnd : (msgs.map (fun m => m.uuid)).Nodup) :
    ∀ (f : Nat) (m : ConversationMessage) (l : List ConversationMessage),
    m ∈ msgs → chainToRoot msgs msgs.length m = some l → msgs.length ≤ f + l.length →
    countNodes (buildNode (childrenMapOf msgs) f m) =
      (msgs.toFinset.filter (fun x => rootedMessage msgs x = true ∧
        m ∈ (chainToRoot msgs msgs.length x).getD [])).card := by
  have hndl : msgs.Nodup := hnd.of_map
  intro f
  induction f with
  | zero =>
      intro m l hm hchain hlen
      have hle := chainToRoot_length msgs msgs.length m l hm hchain
      have hset : msgs.toFinset.filter (fun x => rootedMessage msgs x = true ∧
          m ∈ (chainToRoot msgs msgs.length x).getD []) = {m} := by
        apply Finset.ext
        intro x
        simp only [Finset.mem_filter, Finset.mem_singleton, List.mem_toFinset]
        constructor
        · rintro ⟨hxm, hroot, hmem⟩
          simp only [rootedMessage] at hroot
          obtain ⟨lx, hlx⟩ := Option.isSome_iff_exists.mp hroot
          rw [hlx] at hmem
          simp only [Option.getD_some] at hmem
          obtain ⟨i, g, hig, hg⟩ := chain_mem_decomp msgs msgs.length x lx hlx m hmem
          have hdrop := chainToRoot_unique msgs g msgs.length m _ _ hg hchain
          have hlxlen := chainToRoot_length msgs msgs.length x lx hxm hlx
          have hlen2 := congrArg List.length hdrop
          rw [List.length_drop] at hlen2
          have hilt := i.isLt
          have hi0 : i.val = 0 := by omega
          have hx := chain_pos_zero msgs msgs.length x lx hlx i hi0
          rw [hig] at hx
          exact hx.symm
        · rintro rfl
          refine ⟨hm, ?_, ?_⟩
          · simp only [rootedMessage, hchain, Option.isSome_some]
          · rw [hchain]
            simp only [Option.getD_some]
            obtain ⟨t, rfl⟩ := chainToRoot_head msgs msgs.length _ l hchain
            exact List.mem_cons_self _ t
      rw [hset]
      simp [buildNode, countNodes, countNodesList]
  | succ f' ih =>
      intro m l hm hchain hlen
      have hch : childrenGet (childrenMapOf msgs) (some m.uuid) =
          msgs.filter (fun x => x.parentUuid == some m.uuid) :=
        childrenGet_childrenMapOf msgs (some m.uuid)
      have hchildmem : ∀ c ∈ msgs.filter (fun x => x.parentUuid == some m.uuid),
          c ∈ msgs ∧ c.parentUuid = some m.uuid := by
        intro c hc
        refine ⟨List.mem_of_mem_filter hc, ?_⟩
        have h2 := List.of_mem_filter hc
        simpa using h2
      have hchainc : ∀ c ∈ msgs.filter (fun x => x.parentUuid == some m.uuid),
          chainToRoot msgs msgs.length c = some (c :: l) := by
        intro c hc
        obtain ⟨hcm, hcp⟩ := hchildmem c hc
        exact chainToRoot_norm msgs (msgs.length + 1) c (c :: l) hcm
          (chain_child msgs hnd msgs.length m c l hm hchain hcp)
      have hpoint : ∀ c ∈ msgs.filter (fun x => x.parentUuid == some m.uuid),
          countNodes (buildNode (childrenMapOf msgs) f' c) =
            (msgs.toFinset.filter (fun x => rootedMessage msgs x = true ∧
              c ∈ (chainToRoot msgs msgs.length x).getD [])).card := by
        intro c hc
        obtain ⟨hcm, _⟩ := hchildmem c hc
        apply ih c (c :: l) hcm (hchainc c hc)
        simp only [List.length_cons]
        omega
      have hcount : countNodes (buildNode (childrenMapOf msgs) (f' + 1) m) =
          1 + ((msgs.filter (fun x => x.parentUuid == some m.uuid)).map
            (fun c => countNodes (buildNode (childrenMapOf msgs) f' c))).sum := by
        rw [show buildNode (childrenMapOf msgs) (f' + 1) m =
            ConversationNode.mk m ((childrenGet (childrenMapOf msgs) (some m.uuid)).map
              (fun c => buildNode (childrenMapOf msgs) f' c)) from rfl]
        rw [hch]
        simp only [countNodes, countNodesList_eq_sum, List.map_map]
        rfl
      rw [hcount, List.map_congr_left hpoint]
      have hchn : (msgs.filter (fun x => x.parentUuid == some m.uuid)).Nodup :=
        hndl.filter _
      have hpart : msgs.toFinset.filter (fun x => rootedMessage msgs x = true ∧
          m ∈ (chainToRoot msgs msgs.length x).getD []) =
        insert m ((msgs.filter (fun x => x.parentUuid == some m.uuid)).toFinset.biUnion
          (fun c => msgs.toFinset.filter (fun x => rootedMessage msgs x = true ∧
            c ∈ (chainToRoot msgs msgs.length x).getD []))) := by
        apply Finset.ext
        intro x
        simp only [Finset.mem_filter, Finset.mem_insert, Finset.mem_biUnion,
          List.mem_toFinset]
        constructor
        · rintro ⟨hxm, hroot, hmem⟩
          have hrootu := hroot
          simp only [rootedMessage] at hrootu
          obtain ⟨lx, hlx⟩ := Option.isSome_iff_exists.mp hrootu
          rw [hlx] at hmem
          simp only [Option.getD_some] at hmem
          obtain ⟨i, g, hig, hg⟩ := chain_mem_decomp msgs msgs.length x lx hlx m hmem
          by_cases hi0 : i.val = 0
          · left
            have hx := chain_pos_zero msgs msgs.length x lx hlx i hi0
            rw [hig] at hx
            exact hx.symm
          · right
            have hilt := i.isLt
            have hi1 : i.val - 1 < lx.length := by omega
            have hplus : i.val - 1 + 1 = i.val := by omega
            have hdec : lx.drop (i.val - 1) = lx.get ⟨i.val - 1, hi1⟩ :: lx.drop i.val := by
              rw [List.drop_eq_get_cons hi1, hplus]
            obtain ⟨g2, hg2⟩ := chainToRoot_suffix msgs msgs.length x lx hlx ⟨i.val - 1, hi1⟩
            rw [hdec] at hg2
            have hdropl : lx.drop i.val = l :=
              chainToRoot_unique msgs g msgs.length m _ _ hg hchain
            rw [hdropl] at hg2
            obtain ⟨t, hlt⟩ := chainToRoot_head msgs msgs.length m l hchain
            rw [hlt] at hg2
            rcases chainToRoot_inv msgs g2 _ _ hg2 with
              ⟨_, habs⟩ | ⟨p, par, t2, f2, hcp, _, hfind, hc2, hTeq⟩
            · simp at habs
            · have ht2 : m :: t = t2 := by
                have := hTeq
                injection this
              obtain ⟨t3, ht3⟩ := chainToRoot_head msgs f2 par t2 hc2
              have hpar : par = m := by
                rw [ht3] at ht2
                injection ht2 with h1 _
                exact h1.symm
              have hpp := List.find?_some hfind
              rw [hpar] at hpp
              have hpm : p = m.uuid := by
                have : m.uuid = p := by simpa using hpp
                exact this.symm
              have hcmem : lx.get ⟨i.val - 1, hi1⟩ ∈ msgs := by
                rcases chainToRoot_mem msgs msgs.length x lx hlx _
                    (List.get_mem lx _ _) with heq | hcc
                · rw [heq]; exact hxm
                · exact hcc
              refine ⟨lx.get ⟨i.val - 1, hi1⟩,
                List.mem_filter.mpr ⟨hcmem, by rw [hcp, hpm]; simp⟩, hxm, hroot, ?_⟩
              rw [hlx]
              simp only [Option.getD_some]
              exact List.get_mem lx _ _
        · rintro (rfl | ⟨c, hcchild, hxm, hroot, hcmem⟩)
          · refine ⟨hm, ?_, ?_⟩
            · simp only [rootedMessage, hchain, Option.isSome_some]
            · rw [hchain]
              simp only [Option.getD_some]
              obtain ⟨t, rfl⟩ := chainToRoot_head msgs msgs.length _ l hchain
              exact List.mem_cons_self _ t
          · refine ⟨hxm, hroot, ?_⟩
            have hrootu := hroot
            simp only [rootedMessage] at hrootu
            obtain ⟨lx, hlx⟩ := Option.isSome_iff_exists.mp hrootu
            rw [hlx] at hcmem ⊢
            simp only [Option.getD_some] at hcmem ⊢
            obtain ⟨i, g, hig, hg⟩ := chain_mem_decomp msgs msgs.length x lx hlx c hcmem
            have hchc := hchainc c hcchild
            have hdrop := chainToRoot_unique msgs g msgs.length c _ _ hg hchc
            have hml : m ∈ c :: l := by
              obtain ⟨t, hlt⟩ := chainToRoot_head msgs msgs.length m l hchain
              rw [hlt]
              exact List.mem_cons_of_mem c (List.mem_cons_self m t)
            rw [← hdrop] at hml
            exact List.drop_subset _ lx hml
      have hnotin : m ∉ (msgs.filter (fun x => x.parentUuid == some m.uuid)).toFinset.biUnion
          (fun c => msgs.toFinset.filter (fun x => rootedMessage msgs x = true ∧
            c ∈ (chainToRoot msgs msgs.length x).getD [])) := by
        intro hmem
        simp only [Finset.mem_biUnion, Finset.mem_filter, List.mem_toFinset] at hmem
        obtain ⟨c, hcchild, _, _, hcm⟩ := hmem
        rw [hchain] at hcm
        simp only [Option.getD_some] at hcm
        obtain ⟨hcmem, hcp⟩ := hchildmem c hcchild
        exact child_not_mem_chain msgs hnd msgs.length m c l hm hchain hcp hcm
      have hdisj : ∀ c1 ∈ (msgs.filter (fun x => x.parentUuid == some m.uuid)).toFinset,
          ∀ c2 ∈ (msgs.filter (fun x => x.parentUuid == some m.uuid)).toFinset, c1 ≠ c2 →
          Disjoint (msgs.toFinset.filter (fun x => rootedMessage msgs x = true ∧
              c1 ∈ (chainToRoot msgs msgs.length x).getD []))
            (msgs.toFinset.filter (fun x => rootedMessage msgs x = true ∧
              c2 ∈ (chainToRoot msgs msgs.length x).getD [])) := by
        intro c1 hc1 c2 hc2 hne
        rw [Finset.disjoint_left]
        intro x hx1 hx2
        apply hne
        simp only [Finset.mem_filter, List.mem_toFinset] at hx1 hx2
        obtain ⟨hxm, hroot, hmem1⟩ := hx1
        obtain ⟨_, _, hmem2⟩ := hx2
        simp only [rootedMessage] at hroot
        obtain ⟨lx, hlx⟩ := Option.isSome_iff_exists.mp hroot
        rw [hlx] at hmem1 hmem2
        simp only [Option.getD_some] at hmem1 hmem2
        rw [List.mem_toFinset] at hc1 hc2
        obtain ⟨i1, g1, hig1, hg1⟩ := chain_mem_decomp msgs msgs.length x lx hlx c1 hmem1
        obtain ⟨i2, g2, hig2, hg2⟩ := chain_mem_decomp msgs msgs.length x lx hlx c2 hmem2
        have hd1 := chainToRoot_unique msgs g1 msgs.length c1 _ _ hg1 (hchainc c1 hc1)
        have hd2 := chainToRoot_unique msgs g2 msgs.length c2 _ _ hg2 (hchainc c2 hc2)
        have hl1 := congrArg List.length hd1
        have hl2 := congrArg List.length hd2
        rw [List.length_drop, List.length_cons] at hl1 hl2
        have hi1lt := i1.isLt
        have hi2lt := i2.isLt
        have hieq : i1.val = i2.val := by omega
        rw [← hig1, ← hig2]
        congr 1
        exact Fin.ext hieq
      rw [hpart, Finset.card_insert_of_not_mem hnotin, Finset.card_biUnion hdisj]
      rw [List.sum_toFinset _ hchn]
      omega

theorem roots_partition (msgs : List ConversationMessage) :
    msgs.toFinset.filter (fun x => rootedMessage msgs x = true) =
      (msgs.filter (fun x => x.parentUuid == none)).toFinset.biUnion
        (fun r => msgs.toFinset.filter (fun x => rootedMessage msgs x = true ∧
          r ∈ (chainToRoot msgs msgs.length x).getD [])) := by
  apply Finset.ext
  intro x
  simp only [Finset.mem_filter, Finset.mem_biUnion, List.mem_toFinset]
  constructor
  · rintro ⟨hxm, hroot⟩
    have hrootu := hroot
    simp only [rootedMessage] at hrootu
    obtain ⟨lx, hlx⟩ := Option.isSome_iff_exists.mp hrootu
    obtain ⟨r, t, hlxeq, hrp⟩ := chainToRoot_last msgs msgs.length x lx hlx
    have hrmem_lx : r ∈ lx := by rw [hlxeq]; simp
    have hrmem : r ∈ msgs := by
      rcases chainToRoot_mem msgs msgs.length x lx hlx r hrmem_lx with rfl | h
      · exact hxm
      · exact h
    refine ⟨r, List.mem_filter.mpr ⟨hrmem, by rw [hrp]; rfl⟩, hxm, hroot, ?_⟩
    rw [hlx]
    simpa using hrmem_lx
  · rintro ⟨r, _, hxm, hroot, _⟩
    exact ⟨hxm, hroot⟩

theorem roots_disjoint (msgs : List ConversationMessage) :
    ∀ r1 ∈ (msgs.filter (fun x => x.parentUuid == none)).toFinset,
    ∀ r2 ∈ (msgs.filter (fun x => x.parentUuid == none)).toFinset, r1 ≠ r2 →
    Disjoint (msgs.toFinset.filter (fun x => rootedMessage msgs x = true ∧
        r1 ∈ (chainToRoot msgs msgs.length x).getD []))
      (msgs.toFinset.filter (fun x => rootedMessage msgs x = true ∧
        r2 ∈ (chainToRoot msgs msgs.length x).getD [])) := by
  intro r1 hr1 r2 hr2 hne
  rw [Finset.disjoint_left]
  intro x hx1 hx2
  apply hne
  rw [List.mem_toFinset] at hr1 hr2
  have hp1 : r1.parentUuid = none := by simpa using List.of_mem_filter hr1
  have hp2 : r2.parentUuid = none := by simpa using List.of_mem_filter hr2
  simp only [Finset.mem_filter, List.mem_toFinset] at hx1 hx2
  obtain ⟨hxm, hroot, hm1⟩ := hx1
  obtain ⟨_, _, hm2⟩ := hx2
  simp only [rootedMessage] at hroot
  obtain ⟨lx, hlx⟩ := Option.isSome_iff_exists.mp hroot
  rw [hlx] at hm1 hm2
  simp only [Option.getD_some] at hm1 hm2
  obtain ⟨i1, g1, hig1, hg1⟩ := chain_mem_decomp msgs msgs.length x lx hlx r1 hm1
  obtain ⟨i2, g2, hig2, hg2⟩ := chain_mem_decomp msgs msgs.length x lx hlx r2 hm2
  have hd1 := chainToRoot_unique msgs g1 0 r1 _ _ hg1 (chainToRoot_root msgs 0 r1 hp1)
  have hd2 := chainToRoot_unique msgs g2 0 r2 _ _ hg2 (chainToRoot_root msgs 0 r2 hp2)
  have hl1 := congrArg List.length hd1
  have hl2 := congrArg List.length hd2
  rw [List.length_drop] at hl1 hl2
  simp only [List.length_singleton] at hl1 hl2
  have hi1lt := i1.isLt
  have hi2lt := i2.isLt
  have hieq : i1.val = i2.val := by omega
  rw [← hig1, ← hig2]
  congr 1
  exact Fin.ext hieq

/-- Claim C2 (amended): for a message list with pairwise-distinct uuids,
the total number of nodes at all depths of the forest equals the number
of messages whose whole ancestor chain resolves, through messages
present in the list, to a null-parent root — messages dropped because an
ancestor (not necessarily the immediate parent) is missing, or because
their chain never terminates, are exactly the ones not counted. -/
theorem buildConversationTree_count (msgs : List ConversationMessage)
    (hnd : (msgs.map (fun m => m.uuid)).Nodup) :
    countNodesList (buildConversationTree msgs) =
      msgs.countP (fun m => rootedMessage msgs m) := by
  have hndl : msgs.Nodup := hnd.of_map
  have hlhs : countNodesList (buildConversationTree msgs) =
      ((msgs.filter (fun x => x.parentUuid == none)).map
        (fun r => countNodes (buildNode (childrenMapOf msgs) msgs.length r))).sum := by
    rw [show buildConversationTree msgs =
        (childrenGet (childrenMapOf msgs) none).map
          (fun r => buildNode (childrenMapOf msgs) msgs.length r) from rfl]
    rw [childrenGet_childrenMapOf, countNodesList_eq_sum, List.map_map]
    rfl
  rw [hlhs]
  have hrootfacts : ∀ r ∈ msgs.filter (fun x => x.parentUuid == none),
      r ∈ msgs ∧ r.parentUuid = none := by
    intro r hr
    exact ⟨List.mem_of_mem_filter hr, by simpa using List.of_mem_filter hr⟩
  have hpoint : ∀ r ∈ msgs.filter (fun x => x.parentUuid == none),
      countNodes (buildNode (childrenMapOf msgs) msgs.length r) =
        (msgs.toFinset.filter (fun x => rootedMessage msgs x = true ∧
          r ∈ (chainToRoot msgs msgs.length x).getD [])).card := by
    intro r hr
    obtain ⟨hrm, hrp⟩ := hrootfacts r hr
    exact buildNode_count msgs hnd msgs.length r [r] hrm
      (chainToRoot_root msgs msgs.length r hrp) (by simp)
  rw [List.map_congr_left hpoint]
  have hrhs : msgs.countP (fun m => rootedMessage msgs m) =
      (msgs.toFinset.filter (fun x => rootedMessage msgs x = true)).card := by
    rw [List.countP_eq_length_filter, ← List.toFinset_card_of_nodup (hndl.filter _),
      List.toFinset_filter]
  rw [hrhs, roots_partition msgs, Finset.card_biUnion (roots_disjoint msgs),
    List.sum_toFinset _ (hndl.filter _)]

/-- Claim C2 (counterexample): with a child of a missing parent and a
grandchild below it, the forest drops both messages (no roots exist),
so the node count is 0 while `messages.length` minus the number of
orphaned (parent-not-found) messages is 1. -/
theorem buildConversationTree_count_counterexample :
    countNodesList (buildConversationTree msgsC2) = 0 ∧
    msgsC2.length - msgsC2.countP (orphanedMessage msgsC2) = 1 ∧
    countNodesList (buildConversationTree msgsC2) ≠
      msgsC2.length - msgsC2.countP (orphanedMessage msgsC2) := by
  refine ⟨by decide, by decide, by decide⟩

/-- Claim C2 (witness): on a root with one child plus one directly
orphaned message, the forest holds 2 nodes and exactly 2 messages are
root-connected. -/
theorem buildConversationTree_count_witness :
    countNodesList (buildConversationTree msgsC2w) = 2 ∧
    (msgsC2w.map (fun m => m.uuid)).Nodup ∧
    msgsC2w.countP (fun m => rootedMessage msgsC2w m) = 2 :=
  ⟨(buildConversationTree_count msgsC2w (by decide)).trans (by decide),
   by decide, by decide⟩
